import Mathlib

/-!
Verification of the WeChat article generator (scripts/md_to_html.py).

The development shallowly embeds the text-processing pipeline of the
converter:

* the image-placeholder scanner and substitution loop of process_images,
* the local-image embedder embed_local_images,
* the inline-style pass apply_inline_styles and the calibration pass
  calibrate_code over a model of the parsed HTML tree,
* the image-generation request configuration of generate_image_from_prompt,
* the title extraction of main and the document assembly of build_full_html.

External collaborators (the generative-model service, the Markdown renderer,
base64 encoding, MIME guessing and the filesystem) are modelled as oracle
parameters; the regular expressions of the source are embedded as
deterministic character-list scanners implementing exactly the match
semantics of Python's re module for those patterns.
-/

namespace WeChatGen

set_option maxRecDepth 8192

/-- Character lists; the embedding works on String.data throughout. -/
abbrev Chars := List Char

/-- Boolean test that the first list is an initial segment of the second. -/
def leadsWith : Chars → Chars → Bool
  | [], _ => true
  | _ :: _, [] => false
  | a :: u, b :: v => a = b && leadsWith u v

/-- Split a list at the first occurrence of a character: the part before it
(free of that character) and the part after it.  This is how the patterns of
the converter consume a negated character class up to a closing delimiter. -/
def splitFirst (c : Char) : Chars → Option (Chars × Chars)
  | [] => none
  | a :: r =>
    if a = c then some ([], r)
    else
      match splitFirst c r with
      | none => none
      | some (u, v) => some (a :: u, v)

/-! ## Local image embedder (embed_local_images)

The pattern of embed_local_images is

  !\[([^\]]*)\]\((?!data:|https?://)([^)]+)\)

The filesystem together with mimetypes.guess_type and base64.b64encode is
modelled by an oracle mapping the path string of a reference (group 2 of the
pattern) to the MIME type and base64 payload of the file, or none when the
resolved path does not exist. -/

/-- Filesystem oracle: path ↦ (MIME type, base64 payload) of the resolved
file, or none when it does not exist. -/
abbrev EmbFS := Chars → Option (Chars × Chars)

/-- Negative lookahead (?!data:|https?://) of the local-image pattern. -/
def laFail (l : Chars) : Bool :=
  leadsWith "data:".data l || leadsWith "http://".data l || leadsWith "https://".data l

/-- One attempt of the local-image pattern at the head of a text: alt text
(group 1, free of closing brackets), path (group 2, nonempty, free of
closing parentheses, not starting with data:, http:// or https://) and the
total length of the matched text. -/
def matchEmbAt (l : Chars) : Option (Chars × Chars × Nat) :=
  match l with
  | c1 :: c2 :: r =>
    if c1 = '!' ∧ c2 = '[' then
      match splitFirst ']' r with
      | none => none
      | some (alt, r2) =>
        match r2 with
        | [] => none
        | c3 :: r3 =>
          if c3 = '(' then
            if laFail r3 then none
            else
              match splitFirst ')' r3 with
              | none => none
              | some (path, _) =>
                if path.isEmpty then none
                else some (alt, path, alt.length + path.length + 5)
          else none
    else none
  | _ => none

/-- Data URI produced by image_to_base64: data:{mime};base64,{payload}. -/
def dataUri (mime payload : Chars) : Chars :=
  "data:".data ++ mime ++ ";base64,".data ++ payload

/-- Replacement text f"![{alt_text}]({b64_uri})" for an existing file. -/
def embRepl (alt : Chars) (mp : Chars × Chars) : Chars :=
  "![".data ++ alt ++ "](".data ++ dataUri mp.1 mp.2 ++ ")".data

/-- Fuel-indexed left-to-right scanner equivalent to the find-and-replace
pipeline of embed_local_images: at a matching position, an existing file's
reference is replaced by its data URI and a missing file's reference is kept
unchanged, scanning resumes after the match; at a non-matching position the
character is kept. -/
def goEmbF (fs : EmbFS) : Nat → Chars → Chars
  | 0, l => l
  | _ + 1, [] => []
  | f + 1, c :: r =>
    match matchEmbAt (c :: r) with
    | some (alt, path, len) =>
      (match fs path with
       | some mp => embRepl alt mp
       | none => (c :: r).take len) ++ goEmbF fs f ((c :: r).drop len)
    | none => c :: goEmbF fs f r

/-- Scanner with sufficient fuel. -/
def goEmb (fs : EmbFS) (l : Chars) : Chars := goEmbF fs l.length l

/-- Fuel-indexed model of re.finditer for the local-image pattern:
(start, end, alt, path) of every non-overlapping match, left to right. -/
def finditerEmbF : Nat → Nat → Chars → List (Nat × Nat × Chars × Chars)
  | 0, _, _ => []
  | _ + 1, _, [] => []
  | f + 1, pos, c :: r =>
    match matchEmbAt (c :: r) with
    | some (alt, path, len) =>
      (pos, pos + len, alt, path) :: finditerEmbF f (pos + len) ((c :: r).drop len)
    | none => finditerEmbF f (pos + 1) r

/-- All matches of the local-image pattern in a text. -/
def finditerEmb (l : Chars) : List (Nat × Nat × Chars × Chars) :=
  finditerEmbF l.length 0 l

/-- One slice assignment new_content[start:end] = list(replacement). -/
def spliceOne (l : Chars) (s e : Nat) (repl : Chars) : Chars :=
  l.take s ++ repl ++ l.drop e

/-- Replacements applied in reverse order of discovery, exactly as the
`for (start, end), replacement in reversed(replacements)` loops do. -/
def spliceRev (reps : List (Nat × Nat × Chars)) (l : Chars) : Chars :=
  reps.reverse.foldl (fun acc r => spliceOne acc r.1 r.2.1 r.2.2) l

/-- Replacement list built by the loop of embed_local_images: existing files
contribute a data-URI reference, missing files contribute nothing. -/
def embReplacements (fs : EmbFS) (ms : List (Nat × Nat × Chars × Chars)) :
    List (Nat × Nat × Chars) :=
  ms.filterMap (fun m =>
    match fs m.2.2.2 with
    | some mp => some (m.1, m.2.1, embRepl m.2.2.1 mp)
    | none => none)

/-- Model of embed_local_images: scan for local Markdown image references,
replace the existing ones (in reverse order) by embedded data URIs, leave
missing ones untouched. -/
def embed_local_images (fs : EmbFS) (content : String) : String :=
  ⟨spliceRev (embReplacements fs (finditerEmb content.data)) content.data⟩

/-- Warnings logged by embed_local_images: one per matched local reference
whose file does not exist (logger.warning("图片文件不存在，跳过: …")). -/
def embedWarnings (fs : EmbFS) (content : String) : List Chars :=
  (finditerEmb content.data).filterMap (fun m =>
    match fs m.2.2.2 with
    | none => some m.2.2.2
    | some _ => none)

/-! Basic facts about the matcher. -/

/-- The text matched by a local-image match with the given groups. -/
def embKeep (alt path : Chars) : Chars :=
  "![".data ++ alt ++ "](".data ++ path ++ ")".data

/-! ### Chunk decomposition of the embedder's action

The scan splits the input into literal characters (positions where no match
starts) and matched references; the output is the chunkwise rendering.  This
makes "at the same relative document position" precise. -/

/-- A chunk of the decomposition: a literal character outside every match,
or one matched local image reference (alt, path). -/
inductive EmbChunk where
  | lit : Char → EmbChunk
  | ref : Chars → Chars → EmbChunk
deriving DecidableEq

/-- Concatenation of the images of the elements of a list. -/
def catMap {α : Type} (f : α → Chars) : List α → Chars
  | [] => []
  | a :: r => f a ++ catMap f r

/-- Fuel-indexed chunk decomposition following the scanner. -/
def chunksEmbF : Nat → Chars → List EmbChunk
  | 0, l => l.map EmbChunk.lit
  | _ + 1, [] => []
  | f + 1, c :: r =>
    match matchEmbAt (c :: r) with
    | some (alt, path, len) => EmbChunk.ref alt path :: chunksEmbF f ((c :: r).drop len)
    | none => EmbChunk.lit c :: chunksEmbF f r

/-- Chunk decomposition with sufficient fuel. -/
def chunksEmb (l : Chars) : List EmbChunk := chunksEmbF l.length l

/-- The original text of a chunk. -/
def origEmb : EmbChunk → Chars
  | .lit c => [c]
  | .ref alt path => embKeep alt path

/-- The output text of a chunk under embed_local_images: existing files are
embedded as data URIs, missing ones keep their original reference. -/
def renderEmb (fs : EmbFS) : EmbChunk → Chars
  | .lit c => [c]
  | .ref alt path =>
    match fs path with
    | some mp => embRepl alt mp
    | none => embKeep alt path

/-- Well-formed filesystem oracle: MIME type and base64 payload of an
existing file contain no exclamation mark.  Real MIME names and base64
alphabets satisfy this. -/
def GoodFS (fs : EmbFS) : Prop :=
  ∀ p m b, fs p = some (m, b) → '!' ∉ m ∧ '!' ∉ b

/-! ## Image placeholder scanner (process_images)

The pattern of process_images is r'!\[Image\]\((.*?)\)' with re.IGNORECASE:
the literal label Image is matched case-insensitively, and the lazy group
(.*?) captures up to the first closing parenthesis, without crossing a
newline (the dot does not match newlines).

Prompt expansion (expand_prompt), the generation call
(generate_image_from_prompt), the asset file write gen_{timestamp}.png and
its re-reading are collapsed into one oracle from the description to the
base64 payload of the generated PNG, or none when generation fails (client
absent, no image data, or any error).  The asset file always has extension
.png, so image_to_base64 always infers the MIME type image/png. -/

/-- Generation oracle: description ↦ base64 payload of the generated image,
or none on failure. -/
abbrev ImgGen := Chars → Option Chars

/-- Case-insensitive match of a literal needle, returning the rest. -/
def stripCI : Chars → Chars → Option Chars
  | [], l => some l
  | _ :: _, [] => none
  | a :: n, b :: l => if b.toLower = a.toLower then stripCI n l else none

/-- One attempt of the placeholder pattern at the head of a text:
description (group 1, free of closing parentheses and newlines) and total
match length. -/
def matchImgAt (l : Chars) : Option (Chars × Nat) :=
  match l with
  | c1 :: c2 :: r =>
    if c1 = '!' ∧ c2 = '[' then
      match stripCI "image".data r with
      | none => none
      | some r1 =>
        match r1 with
        | c3 :: c4 :: r2 =>
          if c3 = ']' ∧ c4 = '(' then
            match splitFirst ')' r2 with
            | none => none
            | some (desc, _) =>
              if '\n' ∈ desc then none
              else some (desc, desc.length + 10)
          else none
        | _ => none
    else none
  | _ => none

/-- The placeholder-image reference substituted on failure:
f"![{desc}](https://placehold.co/800x400/FFF9E6/FF9E66.png?text={desc})". -/
def imgPlaceholder (desc : Chars) : Chars :=
  "![".data ++ desc ++ "](https://placehold.co/800x400/FFF9E6/FF9E66.png?text=".data ++
    desc ++ ")".data

/-- The replacement written by the loop of process_images for one match. -/
def imgRepl (gen : ImgGen) (desc : Chars) : Chars :=
  match gen desc with
  | some b64 => "![".data ++ desc ++ "](".data ++ dataUri "image/png".data b64 ++ ")".data
  | none => imgPlaceholder desc

/-- Fuel-indexed model of re.finditer for the placeholder pattern. -/
def finditerImgF : Nat → Nat → Chars → List (Nat × Nat × Chars)
  | 0, _, _ => []
  | _ + 1, _, [] => []
  | f + 1, pos, c :: r =>
    match matchImgAt (c :: r) with
    | some (desc, len) =>
      (pos, pos + len, desc) :: finditerImgF f (pos + len) ((c :: r).drop len)
    | none => finditerImgF f (pos + 1) r

/-- All matches of the placeholder pattern in a text. -/
def finditerImg (l : Chars) : List (Nat × Nat × Chars) :=
  finditerImgF l.length 0 l

/-- Replacement list built by the loop of process_images: one entry per
match, a data reference on success and a placeholder reference on failure. -/
def imgReplacements (gen : ImgGen) (ms : List (Nat × Nat × Chars)) :
    List (Nat × Nat × Chars) :=
  ms.map (fun m => (m.1, m.2.1, imgRepl gen m.2.2))

/-- Model of process_images: find all placeholders, generate (or fail) per
placeholder, then apply the replacements in reverse order. -/
def process_images (gen : ImgGen) (content : String) : String :=
  ⟨spliceRev (imgReplacements gen (finditerImg content.data)) content.data⟩

/-- Fuel-indexed left-to-right scanner equivalent to process_images. -/
def goImgF (gen : ImgGen) : Nat → Chars → Chars
  | 0, l => l
  | _ + 1, [] => []
  | f + 1, c :: r =>
    match matchImgAt (c :: r) with
    | some (desc, len) => imgRepl gen desc ++ goImgF gen f ((c :: r).drop len)
    | none => c :: goImgF gen f r

/-- Scanner with sufficient fuel. -/
def goImg (gen : ImgGen) (l : Chars) : Chars := goImgF gen l.length l

/-- A chunk of the decomposition of process_images's input: a literal
character outside every match, or one matched placeholder with its original
text and description. -/
inductive ImgChunk where
  | lit : Char → ImgChunk
  | ph : Chars → Chars → ImgChunk
deriving DecidableEq

/-- Fuel-indexed chunk decomposition following the scanner. -/
def chunksImgF : Nat → Chars → List ImgChunk
  | 0, l => l.map ImgChunk.lit
  | _ + 1, [] => []
  | f + 1, c :: r =>
    match matchImgAt (c :: r) with
    | some (desc, len) =>
      ImgChunk.ph ((c :: r).take len) desc :: chunksImgF f ((c :: r).drop len)
    | none => ImgChunk.lit c :: chunksImgF f r

/-- Chunk decomposition with sufficient fuel. -/
def chunksImg (l : Chars) : List ImgChunk := chunksImgF l.length l

/-- The original text of a chunk. -/
def origImg : ImgChunk → Chars
  | .lit c => [c]
  | .ph orig _ => orig

/-- The output text of a chunk under process_images. -/
def renderImg (gen : ImgGen) : ImgChunk → Chars
  | .lit c => [c]
  | .ph _ desc => imgRepl gen desc

/-! ## HTML tree model (apply_inline_styles and calibrate_code)

The parsed document (BeautifulSoup tree) is modelled as a forest of nodes;
an element carries its tag name, its style attribute (the only attribute
the embedded passes read or write) and its children.  Parsing and
serialization by the external HTML library are treated as the identity on
this tree, so calibrate_code is a forest-to-forest function. -/

inductive HNode where
  | htext : String → HNode
  | elem : String → Option String → List HNode → HNode

/-- Python whitespace, as stripped by str.strip() and matched by \s
(ASCII range). -/
def wsCh (c : Char) : Bool :=
  c = ' ' || c = '\t' || c = '\n' || c = '\r' || c = '\x0b' || c = '\x0c'

/-- The hardcoded tag-to-style mapping of get_style_mapping. -/
def get_style_mapping (tag : String) : Option String :=
  match tag with
  | "body" => some "font-family: -apple-system, BlinkMacSystemFont, \x27PingFang SC\x27, \x27Hiragino Sans GB\x27, \x27Microsoft YaHei\x27, sans-serif; line-height: 1.75; color: #333333; background: #FAF9F5; margin: 0; padding: 0;"
  | "h1" => some "font-size: 1.6rem; font-weight: 700; color: #222; margin-bottom: 24px; line-height: 1.4;"
  | "h2" => some "display: inline-block; background: #E9C4B1; color: #222; font-size: 1.15rem; padding: 4px 16px; border-radius: 20px; margin: 40px 0 20px; font-weight: 600; box-shadow: 2px 2px 0px rgba(0, 0, 0, 0.05);"
  | "h3" => some "font-size: 1.05rem; font-weight: 600; color: #333333; margin: 28px 0 12px; border-left: 4px solid #FF9E66; padding-left: 10px; line-height: 1.2;"
  | "p" => some "margin-bottom: 20px; text-align: justify; letter-spacing: 0.03em; font-size: 1rem;"
  | "strong" => some "color: #D35400; background: linear-gradient(180deg, transparent 65%, rgba(255, 158, 102, 0.2) 65%); padding: 0 2px;"
  | "blockquote" => some "background: #FFF9E6; border-left: 4px solid #FF9E66; border-radius: 12px; padding: 16px 20px; margin: 24px 0; color: #5F5F5F; font-size: 0.95rem;"
  | "ul" => some "padding-left: 20px; margin-bottom: 24px; color: #5F5F5F;"
  | "ol" => some "padding-left: 20px; margin-bottom: 24px; color: #5F5F5F;"
  | "li" => some "margin-bottom: 8px;"
  | "pre" => some "background: #282C34; border-radius: 12px; padding: 40px 20px 20px; position: relative; overflow-x: auto; margin: 24px 0; color: #ABB2BF; font-size: 0.85rem; line-height: 1.6;"
  | "code" => some "font-family: \x27Fira Code\x27, Consolas, monospace;"
  | "img" => some "display: block; max-width: 100%; border-radius: 12px; margin: 24px auto; box-shadow: 0 4px 12px rgba(0, 0, 0, 0.08);"
  | "hr" => some "border: 0; height: 1px; background: #E0E0E0; margin: 40px 60px;"
  | "article_container" => some "max-width: 680px; margin: 0 auto; background: #FAF9F5; min-height: 100vh;"
  | "article_content" => some "padding: 24px 20px 60px; background: #FAF9F5;"
  | _ => none

/-- The hardcoded inline-code style of apply_inline_styles. -/
def inline_code_style : String :=
  "background: #F0EEE6; color: #C04848; padding: 2px 6px; border-radius: 4px; font-size: 0.9em;"

/-- The lead-paragraph style of apply_inline_styles, including the
appended border-top approximation. -/
def first_p_style : String :=
  "background: #FFF; border: 1px solid #EAEAEA; padding: 24px; border-radius: 12px; font-size: 1.05rem; color: #444; box-shadow: 0 8px 16px rgba(0, 0, 0, 0.04); position: relative; overflow: hidden; border-top: 4px solid #FF9E66;"

/-- The style written by the tag loop of apply_inline_styles for one
element, given its parent tag, its tag and its current style attribute. -/
def styledAttr (parent : Option String) (tag : String) (cur : Option String) :
    Option String :=
  match get_style_mapping tag with
  | none => cur
  | some mapped =>
    if tag = "body" ∨ tag = "article_container" ∨ tag = "article_content" then cur
    else if tag = "code" then
      if parent = some "pre" then cur
      else some (inline_code_style ++ cur.getD "")
    else some (mapped ++ " " ++ cur.getD "")

mutual

/-- The tag loop of apply_inline_styles on one node. -/
def applyStylesN (parent : Option String) : HNode → HNode
  | .htext s => .htext s
  | .elem t s ch => .elem t (styledAttr parent t s) (applyStylesL (some t) ch)

/-- The tag loop of apply_inline_styles on a forest. -/
def applyStylesL (parent : Option String) : List HNode → List HNode
  | [] => []
  | n :: r => applyStylesN parent n :: applyStylesL parent r

end

mutual

/-- The first-paragraph pass of apply_inline_styles on one node: prepends
the lead style to the first paragraph in document order, returning whether
one was found. -/
def leadN : HNode → HNode × Bool
  | .htext s => (.htext s, false)
  | .elem t s ch =>
    if t = "p" then
      (.elem t (some (first_p_style ++ " " ++ s.getD "")) ch, true)
    else
      match leadL ch with
      | (ch', found) => (.elem t s ch', found)

/-- The first-paragraph pass on a forest. -/
def leadL : List HNode → List HNode × Bool
  | [] => ([], false)
  | n :: r =>
    match leadN n with
    | (n', true) => (n' :: r, true)
    | (_, false) =>
      match leadL r with
      | (r', found) => (n :: r', found)

end

/-- Model of apply_inline_styles: the tag loop, then the lead-paragraph
special case. -/
def apply_inline_styles (doc : List HNode) : List HNode :=
  (leadL (applyStylesL none doc)).1

mutual

/-- Whether a node contributes non-whitespace text, i.e. whether
get_text(strip=True) of it is nonempty. -/
def hasNonWs : HNode → Bool
  | .htext s => s.data.any (fun c => !wsCh c)
  | .elem _ _ ch => hasNonWsL ch

def hasNonWsL : List HNode → Bool
  | [] => false
  | n :: r => hasNonWs n || hasNonWsL r

end

mutual

/-- Whether a node has an img element among its descendants or is one. -/
def hasImgN : HNode → Bool
  | .htext _ => false
  | .elem t _ ch => t = "img" || hasImgL ch

def hasImgL : List HNode → Bool
  | [] => false
  | n :: r => hasImgN n || hasImgL r

end

/-- The removal condition of calibrate_code: a p element with no
non-whitespace text and no img descendant. -/
def removable : HNode → Bool
  | .htext _ => false
  | .elem t _ ch => t = "p" && !hasNonWsL ch && !hasImgL ch

mutual

/-- The empty-paragraph removal pass of calibrate_code on one node. -/
def removeEmptyN : HNode → HNode
  | .htext s => .htext s
  | .elem t s ch => .elem t s (removeEmptyL ch)

/-- The empty-paragraph removal pass on a forest. -/
def removeEmptyL : List HNode → List HNode
  | [] => []
  | n :: r =>
    if removable n then removeEmptyL r
    else removeEmptyN n :: removeEmptyL r

end

/-- Model of calibrate_code: apply the inline styles, then remove the
empty paragraphs (parse and serialization of the external HTML library are
the identity on the tree model). -/
def calibrate_code (doc : List HNode) : List HNode :=
  removeEmptyL (apply_inline_styles doc)

mutual

/-- All elements of a node with their parent tag: (parent, tag, style)
triples in document order. -/
def elemsN (parent : Option String) : HNode → List (Option String × String × Option String)
  | .htext _ => []
  | .elem t s ch => (parent, t, s) :: elemsL (some t) ch

/-- All elements of a forest with their parent tag. -/
def elemsL (parent : Option String) : List HNode → List (Option String × String × Option String)
  | [] => []
  | n :: r => elemsN parent n ++ elemsL parent r

end

/-- The per-element effect of the tag loop on the triple list. -/
def styledTriple (e : Option String × String × Option String) :
    Option String × String × Option String :=
  (e.1, e.2.1, styledAttr e.1 e.2.1 e.2.2)

/-! ## Image generation request configuration (generate_image_from_prompt) -/

/-- Media resolutions of the external SDK enum. -/
inductive MediaResolution where
  | low
  | medium
  | high
deriving DecidableEq

/-- The res_map dictionary of generate_image_from_prompt: the enumerated
IMAGE_RESOLUTION values are 1k, 2k and 4k. -/
def res_map (resolution : String) : Option MediaResolution :=
  match resolution with
  | "1k" => some MediaResolution.low
  | "2k" => some MediaResolution.medium
  | "4k" => some MediaResolution.high
  | _ => none

/-- The default IMAGE_RESOLUTION when the environment does not set it. -/
def IMAGE_RESOLUTION_default : String := "2k"

/-- A tool attached to a generation request. -/
inductive GenTool where
  | googleSearch
deriving DecidableEq

/-- The request configuration object passed to the generation call. -/
structure GenerateContentConfig where
  tools : Option (List GenTool)
deriving DecidableEq

/-- The request configuration built by generate_image_from_prompt from the
process configuration: only the search toggle enters it.  The resolution
setting is read and logged, and res_map is written down, but the line
selecting a resolution is commented out in the source, so the configuration
ignores the imageResolution argument. -/
def generation_config (enableSearch : Bool) (imageResolution : String) :
    GenerateContentConfig :=
  let tools : List GenTool := if enableSearch then [GenTool.googleSearch] else []
  { tools := if tools.isEmpty then none else some tools }

/-! ## Title extraction (main)

main extracts the title with re.search(r'^#\s+(.+)$', content, re.MULTILINE)
and falls back to a fixed default.  The embedding implements that regex
exactly: ^ anchors at line starts, \s+ greedily eats whitespace including
newlines (backtracking when the text ends), (.+) takes the rest of the line
(at least one non-newline character), and the leftmost successful position
wins. -/

/-- Index of the last non-newline character of a list, if any. -/
def lastIdxNonNl : Chars → Option Nat
  | [] => none
  | c :: r =>
    match lastIdxNonNl r with
    | some j => some (j + 1)
    | none => if c = '\n' then none else some 0

/-- One attempt of ^#\s+(.+)$ at a line-start position: the greedy
whitespace run after the hash, then the capture up to the end of line; when
the whitespace run reaches the end of the text the engine backtracks to the
longest run leaving one matchable character. -/
def matchTitleAt (l : Chars) : Option Chars :=
  match l with
  | [] => none
  | c :: r =>
    if c = '#' then
      let W := r.takeWhile wsCh
      let rest := r.dropWhile wsCh
      if W.isEmpty then none
      else if rest.isEmpty then
        match lastIdxNonNl (W.drop 1) with
        | none => none
        | some j => some (((W.drop 1).drop j).takeWhile (fun ch => ch != '\n'))
      else some (rest.takeWhile (fun ch => ch != '\n'))
    else none

/-- Left-to-right search for the first line-start position where the title
pattern matches. -/
def searchTitleGo (atLS : Bool) : Chars → Option Chars
  | [] => none
  | c :: r =>
    match (if atLS then matchTitleAt (c :: r) else none) with
    | some t => some t
    | none => searchTitleGo (c = '\n') r

/-- The title computed by main: the first match of the pattern, or the
fixed default 科技速食科普. -/
def extractTitle (content : String) : String :=
  match searchTitleGo true content.data with
  | some t => String.mk t
  | none => "科技速食科普"

/-! ## Document assembly (build_full_html)

The CSS loaded by load_css (empty when the bundled template file is absent)
is passed as a parameter; the literal segments of the f-string template and
the fixed copy-control strings are reproduced below. -/

def copy_btn_css : String :=
  "\n/* 一键复制按钮样式 */\n.copy-btn \x7b\n  position: fixed;\n  top: 20px;\n  right: 20px;\n  padding: 12px 24px;\n  background: linear-gradient(135deg, #FF9E66, #E9C4B1);\n  color: #fff;\n  border: none;\n  border-radius: 25px;\n  font-size: 14px;\n  font-weight: 600;\n  cursor: pointer;\n  box-shadow: 0 4px 15px rgba(255, 158, 102, 0.4);\n  transition: all 0.3s ease;\n  z-index: 9999;\n  display: flex;\n  align-items: center;\n  gap: 8px;\n\x7d\n\n.copy-btn:hover \x7b\n  transform: translateY(-2px);\n  box-shadow: 0 6px 20px rgba(255, 158, 102, 0.5);\n\x7d\n\n.copy-btn:active \x7b\n  transform: translateY(0);\n\x7d\n\n.copy-btn.success \x7b\n  background: linear-gradient(135deg, #27C93F, #52D668);\n\x7d\n\n.copy-btn svg \x7b\n  width: 18px;\n  height: 18px;\n  fill: currentColor;\n\x7d\n\n.copy-toast \x7b\n  position: fixed;\n  top: 80px;\n  right: 20px;\n  padding: 12px 20px;\n  background: rgba(0, 0, 0, 0.8);\n  color: #fff;\n  border-radius: 8px;\n  font-size: 14px;\n  opacity: 0;\n  transform: translateY(-10px);\n  transition: all 0.3s ease;\n  z-index: 9999;\n\x7d\n\n.copy-toast.show \x7b\n  opacity: 1;\n  transform: translateY(0);\n\x7d\n\n@media print \x7b\n  .copy-btn, .copy-toast \x7b display: none !important; \x7d\n\x7d\n"

def copy_script : String :=
  "\n<script>\nfunction copyArticleContent() \x7b\n  // Select the container so that we capture the inner div with its background style\n  const articleContent = document.querySelector(\x27.article-container\x27);\n  const btn = document.querySelector(\x27.copy-btn\x27);\n  const toast = document.getElementById(\x27copyToast\x27);\n\n  const range = document.createRange();\n  range.selectNodeContents(articleContent);\n\n  const selection = window.getSelection();\n  selection.removeAllRanges();\n  selection.addRange(range);\n\n  try \x7b\n    const success = document.execCommand(\x27copy\x27);\n    if (success) \x7b\n      btn.classList.add(\x27success\x27);\n      btn.querySelector(\x27span\x27).textContent = \x27复制成功！\x27;\n      toast.classList.add(\x27show\x27);\n\n      setTimeout(() => \x7b\n        btn.classList.remove(\x27success\x27);\n        btn.querySelector(\x27span\x27).textContent = \x27一键复制\x27;\n        toast.classList.remove(\x27show\x27);\n      \x7d, 2000);\n    \x7d else \x7b\n      throw new Error(\x27复制失败\x27);\n    \x7d\n  \x7d catch (err) \x7b\n    toast.textContent = \x27复制失败，请手动选择复制\x27;\n    toast.classList.add(\x27show\x27);\n    setTimeout(() => \x7b\n      toast.classList.remove(\x27show\x27);\n      toast.textContent = \x27复制成功！可直接粘贴到微信公众号\x27;\n    \x7d, 2000);\n  \x7d\n\n  selection.removeAllRanges();\n\x7d\n</script>\n"

def copy_btn_html : String :=
  "\n<!-- 一键复制按钮 -->\n<button class=\"copy-btn\" onclick=\"copyArticleContent()\">\n  <svg viewBox=\"0 0 24 24\" xmlns=\"http://www.w3.org/2000/svg\">\n    <path d=\"M16 1H4c-1.1 0-2 .9-2 2v14h2V3h12V1zm3 4H8c-1.1 0-2 .9-2 2v14c0 1.1.9 2 2 2h11c1.1 0 2-.9 2-2V7c0-1.1-.9-2-2-2zm0 16H8V7h11v14z\"/>\n  </svg>\n  <span>一键复制</span>\n</button>\n<div class=\"copy-toast\" id=\"copyToast\">复制成功！可直接粘贴到微信公众号</div>\n"

def tmplSeg0 : String :=
  "<!DOCTYPE html>\n<html lang=\"zh-CN\">\n<head>\n    <meta charset=\"UTF-8\">\n    <meta name=\"viewport\" content=\"width=device-width, initial-scale=1.0\">\n    <meta name=\"generator\" content=\"WeChat Article Gen (TechFastFood)\">\n    <title>"

def tmplSeg1 : String :=
  "</title>\n    <style>\n"

def tmplSeg2 : String :=
  "\n"

def tmplSeg3 : String :=
  "\n    </style>\n</head>\n<body>\n"

def tmplSeg4 : String :=
  "\n"

def tmplSeg5 : String :=
  "\n    <!-- WeChat Outer Wrapper to Enforce Background -->\n    <section id=\"wechat-wrapper\" style=\"background-color: #FAF9F5; min-height: 100vh; font-family: -apple-system, BlinkMacSystemFont, \x27PingFang SC\x27, \x27Hiragino Sans GB\x27, \x27Microsoft YaHei\x27, sans-serif; color: #333333; line-height: 1.75;\">\n        <div class=\"article-container\" style=\"max-width: 680px; margin: 0 auto; background: #FAF9F5;\">\n            <div class=\"article-content\" style=\"padding: 24px 20px 60px; background: #FAF9F5;\">\n"

def tmplSeg6 : String :=
  "\n            </div>\n        </div>\n    </section>\n</body>\n</html>"

/-- Model of build_full_html: the fixed template with the title, the CSS,
the copy control and the body interpolated. -/
def build_full_html (css : String) (body : String) (title : String) : String :=
  tmplSeg0 ++ title ++ tmplSeg1 ++ css ++ tmplSeg2 ++ copy_btn_css ++ tmplSeg3 ++
    copy_btn_html ++ tmplSeg4 ++ copy_script ++ tmplSeg5 ++ body ++ tmplSeg6

/-! ### Line-level analysis of the title search -/

/-- Split a text into its lines (separator not kept). -/
def splitNl : Chars → List Chars
  | [] => [[]]
  | c :: r =>
    if c = '\n' then [] :: splitNl r
    else
      match splitNl r with
      | [] => [[c]]
      | L :: Ls => (c :: L) :: Ls

/-- Join lines with newlines. -/
def joinNl : List Chars → Chars
  | [] => []
  | [l] => l
  | l :: ls => l ++ '\n' :: joinNl ls

/-- A proper heading line: a hash, at least one whitespace character, and a
nonempty remainder. -/
def isProper (line : Chars) : Bool :=
  match line with
  | [] => false
  | c :: r => c = '#' && !(r.takeWhile wsCh).isEmpty && !(r.dropWhile wsCh).isEmpty

/-- The captured title text of a proper heading line: the remainder after
the whitespace run, to the end of the line. -/
def captureOf (line : Chars) : Chars :=
  match line with
  | [] => []
  | _ :: r => r.dropWhile wsCh

/-- A troublesome line: a hash followed by nothing but whitespace.  At such
a line the whitespace of \s+ can swallow the newline and the match can leak
into the following lines. -/
def isTrouble (line : Chars) : Bool :=
  match line with
  | [] => false
  | c :: r => c = '#' && (r.dropWhile wsCh).isEmpty

/-- The capture of the first proper heading line, scanning in order. -/
def firstProperCapture : List Chars → Option Chars
  | [] => none
  | L :: r => if isProper L then some (captureOf L) else firstProperCapture r

/-- A sample filesystem for witnesses: one existing png. -/
def sampleFS : EmbFS := fun p =>
  if p = "img.png".data then some ("image/png".data, "QUJD".data) else none

/-! ## Theorems -/

theorem splitFirst_eq {c : Char} :
    ∀ {l u v : Chars}, splitFirst c l = some (u, v) → l = u ++ c :: v ∧ c ∉ u := by
  intro l
  induction l with
  | nil => intro u v h; simp [splitFirst] at h
  | cons a r ih =>
    intro u v h
    by_cases hac : a = c
    · subst hac
      simp [splitFirst] at h
      obtain ⟨rfl, rfl⟩ := h
      simp
    · simp [splitFirst, hac] at h
      rcases hsp : splitFirst c r with _ | ⟨u', v'⟩
      · rw [hsp] at h; simp at h
      · rw [hsp] at h
        simp at h
        obtain ⟨rfl, rfl⟩ := h
        obtain ⟨hr, hnot⟩ := ih hsp
        subst hr
        constructor
        · simp
        · intro hmem
          rcases List.mem_cons.mp hmem with h | h
          · exact hac h.symm
          · exact hnot h

theorem splitFirst_of {c : Char} :
    ∀ (u v : Chars), c ∉ u → splitFirst c (u ++ c :: v) = some (u, v) := by
  intro u
  induction u with
  | nil => intro v _; simp [splitFirst]
  | cons a u' ih =>
    intro v hnot
    have ha : a ≠ c := by intro h; exact hnot (by simp [h])
    have h' : c ∉ u' := fun h => hnot (by simp [h])
    simp [splitFirst, ha, ih v h']

theorem splitFirst_none {c : Char} :
    ∀ {l : Chars}, splitFirst c l = none ↔ c ∉ l := by
  intro l
  induction l with
  | nil => simp [splitFirst]
  | cons a r ih =>
    by_cases hac : a = c
    · subst hac; simp [splitFirst]
    · simp only [splitFirst, if_neg hac]
      rcases hsp : splitFirst c r with _ | ⟨u', v'⟩
      · simpa [hac, Ne.symm hac] using ih.mp hsp
      · have : c ∈ r := by
          by_contra hcr
          rw [ih.mpr hcr] at hsp
          exact Option.noConfusion hsp
        simp [hac, Ne.symm hac, this]

/-- Uniqueness of the first-occurrence decomposition. -/
theorem first_occ_unique {c : Char} :
    ∀ {u v u' v' : Chars}, c ∉ u → c ∉ u' →
      u ++ c :: v = u' ++ c :: v' → u = u' ∧ v = v' := by
  intro u v u' v' hu hu' heq
  have h1 := splitFirst_of (c := c) u v hu
  have h2 := splitFirst_of (c := c) u' v' hu'
  rw [heq] at h1
  rw [h1] at h2
  simp at h2
  exact ⟨h2.1, h2.2⟩

theorem embKeep_cons (alt path : Chars) :
    embKeep alt path = '!' :: '[' :: (alt ++ ']' :: '(' :: (path ++ [')'])) := by
  simp [embKeep, String.data]

theorem embKeep_length (alt path : Chars) :
    (embKeep alt path).length = alt.length + path.length + 5 := by
  simp [embKeep_cons]
  omega

theorem embKeep_append (alt path rest : Chars) :
    embKeep alt path ++ rest = '!' :: '[' :: (alt ++ ']' :: '(' :: (path ++ ')' :: rest)) := by
  simp [embKeep_cons]

/-- Soundness of the matcher: a successful match decomposes the text. -/
theorem matchEmbAt_eq {l : Chars} {alt path : Chars} {len : Nat}
    (h : matchEmbAt l = some (alt, path, len)) :
    ']' ∉ alt ∧ ')' ∉ path ∧ path ≠ [] ∧
      len = alt.length + path.length + 5 ∧
      l = embKeep alt path ++ l.drop len ∧
      laFail (path ++ ')' :: l.drop len) = false := by
  match l with
  | [] => exact absurd h (by simp [matchEmbAt])
  | [c] => exact absurd h (by simp [matchEmbAt])
  | c1 :: c2 :: r =>
    rw [matchEmbAt] at h
    by_cases h12 : c1 = '!' ∧ c2 = '['
    · rw [if_pos h12] at h
      obtain ⟨rfl, rfl⟩ := h12
      rcases h1 : splitFirst ']' r with _ | ⟨alt', r2⟩
      · rw [h1] at h; exact absurd h (by simp)
      · rw [h1] at h
        obtain ⟨hr, haltnot⟩ := splitFirst_eq h1
        match r2 with
        | [] => exact absurd h (by simp)
        | c3 :: r3 =>
          simp only at h
          by_cases h3 : c3 = '('
          · rw [if_pos h3] at h
            subst h3
            by_cases hla : laFail r3
            · rw [if_pos hla] at h; exact absurd h (by simp)
            · rw [if_neg hla] at h
              rcases h2 : splitFirst ')' r3 with _ | ⟨path', r4⟩
              · rw [h2] at h; exact absurd h (by simp)
              · rw [h2] at h
                simp only at h
                obtain ⟨hr3, hpathnot⟩ := splitFirst_eq h2
                by_cases hemp : path'.isEmpty
                · rw [if_pos hemp] at h; exact absurd h (by simp)
                · rw [if_neg hemp] at h
                  simp only [Option.some.injEq, Prod.mk.injEq] at h
                  obtain ⟨rfl, rfl, rfl⟩ := h
                  have hne : path' ≠ [] := by
                    intro hp; rw [hp] at hemp; exact hemp rfl
                  subst hr3
                  subst hr
                  have hdrop :
                      ('!' :: '[' :: (alt' ++ ']' :: '(' :: (path' ++ ')' :: r4))).drop
                        (alt'.length + path'.length + 5) = r4 := by
                    rw [← embKeep_append]
                    exact List.drop_left' (embKeep_length alt' path')
                  refine ⟨haltnot, hpathnot, hne, rfl, ?_, ?_⟩
                  · rw [hdrop, embKeep_append]
                  · rw [hdrop]
                    simpa using hla
          · rw [if_neg h3] at h; exact absurd h (by simp)
    · rw [if_neg h12] at h; exact absurd h (by simp)

/-- Completeness of the matcher: a well-formed reference at the head of the
text matches with exactly its groups. -/
theorem matchEmbAt_of {alt path : Chars} (rest : Chars)
    (halt : ']' ∉ alt) (hpath : ')' ∉ path) (hne : path ≠ [])
    (hla : laFail (path ++ ')' :: rest) = false) :
    matchEmbAt (embKeep alt path ++ rest) =
      some (alt, path, alt.length + path.length + 5) := by
  rw [embKeep_append, matchEmbAt]
  rw [if_pos ⟨rfl, rfl⟩]
  rw [splitFirst_of alt (('(' :: (path ++ ')' :: rest))) halt]
  simp only
  simp [hla, splitFirst_of path rest hpath, List.isEmpty_iff, hne]

/-- The matched length is positive and bounded by the text length. -/
theorem matchEmbAt_len {l alt path : Chars} {len : Nat}
    (h : matchEmbAt l = some (alt, path, len)) : 0 < len ∧ len ≤ l.length := by
  obtain ⟨_, _, _, hlen, hdec, _⟩ := matchEmbAt_eq h
  constructor
  · omega
  · conv_rhs => rw [hdec]
    rw [List.length_append, embKeep_length]
    omega

/-- The boolean prefix test only looks at the needle's length worth of
characters; past a character absent from the needle the continuation is
irrelevant. -/
theorem leadsWith_stable {n : Chars} (hn : ')' ∉ n) :
    ∀ (p t t' : Chars), ')' ∉ p →
      leadsWith n (p ++ ')' :: t) = leadsWith n (p ++ ')' :: t') := by
  induction n with
  | nil => intro p t t' _; rfl
  | cons a n' ih =>
    intro p t t' hp
    match p with
    | [] =>
      have ha : a ≠ ')' := fun h => hn (by simp [h])
      simp [leadsWith, ha]
    | b :: p' =>
      have hn' : ')' ∉ n' := fun h => hn (by simp [h])
      have hp' : ')' ∉ p' := fun h => hp (by simp [h])
      simp [leadsWith, ih hn' p' t t' hp']

/-- The negative lookahead of the local-image pattern depends only on the
path group and the closing parenthesis, not on what follows the match. -/
theorem laFail_stable {p : Chars} (hp : ')' ∉ p) (t t' : Chars) :
    laFail (p ++ ')' :: t) = laFail (p ++ ')' :: t') := by
  unfold laFail
  rw [leadsWith_stable (by decide) p t t' hp,
    @leadsWith_stable "http://".data (by decide) p t t' hp,
    @leadsWith_stable "https://".data (by decide) p t t' hp]

theorem goEmbF_nil (fs : EmbFS) : ∀ f, goEmbF fs f [] = [] := by
  intro f; cases f <;> rfl

/-- Any sufficient fuel computes the same scan. -/
theorem goEmbF_fuel (fs : EmbFS) :
    ∀ (f1 : Nat) (l : Chars) (f2 : Nat), l.length ≤ f1 → l.length ≤ f2 →
      goEmbF fs f1 l = goEmbF fs f2 l := by
  intro f1
  induction f1 with
  | zero =>
    intro l f2 h1 _
    have : l = [] := List.length_eq_zero.mp (Nat.le_zero.mp h1)
    subst this
    rw [goEmbF_nil, goEmbF_nil]
  | succ g ih =>
    intro l f2 h1 h2
    match l with
    | [] => rw [goEmbF_nil, goEmbF_nil]
    | c :: r =>
      match f2 with
      | 0 => exact absurd h2 (by simp)
      | g2 + 1 =>
        simp only [goEmbF]
        rcases hm : matchEmbAt (c :: r) with _ | ⟨alt, path, len⟩
        · simp only
          have hr1 : r.length ≤ g := by simpa using h1
          have hr2 : r.length ≤ g2 := by simpa using h2
          rw [ih r g2 hr1 hr2]
        · simp only
          obtain ⟨hpos, hle⟩ := matchEmbAt_len hm
          have hd1 : ((c :: r).drop len).length ≤ g := by
            rw [List.length_drop]
            simp only [List.length_cons] at h1 ⊢
            omega
          have hd2 : ((c :: r).drop len).length ≤ g2 := by
            rw [List.length_drop]
            simp only [List.length_cons] at h2 ⊢
            omega
          rw [ih _ g2 hd1 hd2]

theorem goEmb_nil (fs : EmbFS) : goEmb fs [] = [] := rfl

/-- Step equation of the scanner at a matching position. -/
theorem goEmb_match {fs : EmbFS} {l alt path : Chars} {len : Nat}
    (h : matchEmbAt l = some (alt, path, len)) :
    goEmb fs l =
      (match fs path with
       | some mp => embRepl alt mp
       | none => l.take len) ++ goEmb fs (l.drop len) := by
  match l with
  | [] => simp [matchEmbAt] at h
  | c :: r =>
    show goEmbF fs (r.length + 1) (c :: r) = _
    simp only [goEmbF]
    rw [h]
    simp only
    obtain ⟨hpos, hle⟩ := matchEmbAt_len h
    have hlen : ((c :: r).drop len).length ≤ r.length := by
      rw [List.length_drop]
      simp only [List.length_cons] at hle ⊢
      omega
    rw [goEmbF_fuel fs r.length _ _ hlen (le_refl _)]
    rfl

/-- Step equation of the scanner at a non-matching position. -/
theorem goEmb_none {fs : EmbFS} {c : Char} {r : Chars}
    (h : matchEmbAt (c :: r) = none) :
    goEmb fs (c :: r) = c :: goEmb fs r := by
  show goEmbF fs (r.length + 1) (c :: r) = _
  simp only [goEmbF]
  rw [h]
  rfl

/-! ### Equivalence of the reversed-splice pipeline with the direct scan -/

theorem finditerEmbF_nil : ∀ f pos, finditerEmbF f pos [] = [] := by
  intro f pos; cases f <;> rfl

theorem spliceRev_cons (s e : Nat) (rep : Chars) (reps : List (Nat × Nat × Chars))
    (l : Chars) :
    spliceRev ((s, e, rep) :: reps) l = spliceOne (spliceRev reps l) s e rep := by
  unfold spliceRev
  rw [List.reverse_cons, List.foldl_append]
  rfl

/-- Applying the replacement list of the matches found from a given position
in reverse order is the same as scanning directly: the processed prefix is
untouched and the tail is rewritten left to right. -/
theorem spliceRev_eq_go (fs : EmbFS) :
    ∀ (f : Nat) (l pre : Chars), l.length ≤ f →
      spliceRev (embReplacements fs (finditerEmbF f pre.length l)) (pre ++ l) =
        pre ++ goEmb fs l := by
  intro f
  induction f with
  | zero =>
    intro l pre h1
    have : l = [] := List.length_eq_zero.mp (Nat.le_zero.mp h1)
    subst this
    rfl
  | succ g ih =>
    intro l pre h1
    match l with
    | [] => rw [finditerEmbF_nil]; rfl
    | c :: r =>
      rcases hm : matchEmbAt (c :: r) with _ | ⟨alt, path, len⟩
      · show spliceRev (embReplacements fs (finditerEmbF (g + 1) pre.length (c :: r))) _ = _
        simp only [finditerEmbF]
        rw [hm]
        have hlen : (pre ++ [c]).length = pre.length + 1 := by simp
        have hr : r.length ≤ g := by simpa using h1
        have := ih r (pre ++ [c]) hr
        rw [hlen] at this
        calc spliceRev (embReplacements fs (finditerEmbF g (pre.length + 1) r)) (pre ++ c :: r)
            = spliceRev (embReplacements fs (finditerEmbF g (pre.length + 1) r))
                ((pre ++ [c]) ++ r) := by simp
          _ = (pre ++ [c]) ++ goEmb fs r := this
          _ = pre ++ (c :: goEmb fs r) := by simp
          _ = pre ++ goEmb fs (c :: r) := by rw [goEmb_none hm]
      · show spliceRev (embReplacements fs (finditerEmbF (g + 1) pre.length (c :: r))) _ = _
        simp only [finditerEmbF]
        rw [hm]
        obtain ⟨hpos, hle⟩ := matchEmbAt_len hm
        have hle' : len ≤ r.length + 1 := by simpa using hle
        have htk : (pre ++ (c :: r).take len).length = pre.length + len := by
          rw [List.length_append, List.length_take]
          simp only [List.length_cons]
          omega
        have hdr : ((c :: r).drop len).length ≤ g := by
          rw [List.length_drop]
          simp only [List.length_cons] at h1 ⊢
          omega
        have key := ih ((c :: r).drop len) (pre ++ (c :: r).take len) hdr
        rw [htk] at key
        have hsplit : (pre ++ (c :: r).take len) ++ (c :: r).drop len = pre ++ c :: r := by
          rw [List.append_assoc, List.take_append_drop]
        rw [hsplit] at key
        have hgo := @goEmb_match fs _ _ _ _ hm
        rcases hfs : fs path with _ | mp
        · -- missing file: no replacement is recorded, the match text stays
          simp only [embReplacements, List.filterMap_cons, hfs]
          rw [show (embReplacements fs (finditerEmbF g (pre.length + len) ((c :: r).drop len))) = (List.filterMap (fun m => match fs m.2.2.2 with | some mp => some (m.1, m.2.1, embRepl m.2.2.1 mp) | none => none) (finditerEmbF g (pre.length + len) ((c :: r).drop len))) from rfl] at key
          rw [key]
          rw [hgo, hfs]
          simp
        · -- existing file: the recorded replacement overwrites the match span
          simp only [embReplacements, List.filterMap_cons, hfs]
          rw [spliceRev_cons]
          rw [show (List.filterMap (fun m => match fs m.2.2.2 with | some mp => some (m.1, m.2.1, embRepl m.2.2.1 mp) | none => none) (finditerEmbF g (pre.length + len) ((c :: r).drop len))) = (embReplacements fs (finditerEmbF g (pre.length + len) ((c :: r).drop len))) from rfl]
          rw [key]
          unfold spliceOne
          rw [hgo, hfs]
          simp only
          have h1' : pre.length ≤ (pre ++ (c :: r).take len).length := by
            rw [htk]; omega
          rw [← List.append_assoc]
          rw [List.take_append_of_le_length h1']
          rw [List.take_left]
          rw [List.drop_left' htk]

/-- embed_local_images computes exactly the left-to-right scan. -/
theorem embed_eq_go (fs : EmbFS) (content : String) :
    embed_local_images fs content = ⟨goEmb fs content.data⟩ := by
  unfold embed_local_images finditerEmb
  exact congrArg String.mk
    (by simpa using spliceRev_eq_go fs content.data.length content.data [] (le_refl _))

/-- The text matched by a successful match attempt is the reference text. -/
theorem matchEmbAt_take {l alt path : Chars} {len : Nat}
    (h : matchEmbAt l = some (alt, path, len)) : l.take len = embKeep alt path := by
  obtain ⟨_, _, _, hlen, hdec, _⟩ := matchEmbAt_eq h
  conv_lhs => rw [hdec]
  rw [List.take_left']
  rw [embKeep_length]
  omega

/-- The chunks of a text concatenate back to the text. -/
theorem chunksEmbF_orig : ∀ (f : Nat) (l : Chars), l.length ≤ f →
    catMap origEmb (chunksEmbF f l) = l := by
  intro f
  induction f with
  | zero =>
    intro l h1
    have : l = [] := List.length_eq_zero.mp (Nat.le_zero.mp h1)
    subst this
    rfl
  | succ g ih =>
    intro l h1
    match l with
    | [] => rfl
    | c :: r =>
      show catMap origEmb (chunksEmbF (g + 1) (c :: r)) = c :: r
      simp only [chunksEmbF]
      rcases hm : matchEmbAt (c :: r) with _ | ⟨alt, path, len⟩
      · simp only [catMap]
        rw [ih r (by simpa using h1)]
        rfl
      · simp only [catMap, origEmb]
        obtain ⟨hpos, hle⟩ := matchEmbAt_len hm
        have hdr : ((c :: r).drop len).length ≤ g := by
          rw [List.length_drop]
          simp only [List.length_cons] at h1 ⊢
          omega
        rw [ih _ hdr]
        obtain ⟨_, _, _, _, hdec, _⟩ := matchEmbAt_eq hm
        exact hdec.symm

/-- The scan output is the chunkwise rendering. -/
theorem goEmb_eq_chunks (fs : EmbFS) : ∀ (f : Nat) (l : Chars), l.length ≤ f →
    goEmb fs l = catMap (renderEmb fs) (chunksEmbF f l) := by
  intro f
  induction f with
  | zero =>
    intro l h1
    have : l = [] := List.length_eq_zero.mp (Nat.le_zero.mp h1)
    subst this
    rfl
  | succ g ih =>
    intro l h1
    match l with
    | [] => rfl
    | c :: r =>
      simp only [chunksEmbF]
      rcases hm : matchEmbAt (c :: r) with _ | ⟨alt, path, len⟩
      · rw [goEmb_none hm]
        simp only [catMap, renderEmb]
        rw [ih r (by simpa using h1)]
        rfl
      · rw [goEmb_match hm]
        simp only [catMap, renderEmb]
        obtain ⟨hpos, hle⟩ := matchEmbAt_len hm
        have hdr : ((c :: r).drop len).length ≤ g := by
          rw [List.length_drop]
          simp only [List.length_cons] at h1 ⊢
          omega
        rw [← ih _ hdr]
        rcases hfs : fs path with _ | mp
        · rw [matchEmbAt_take hm]
        · rfl

/-- The matches reported by finditer are exactly the reference chunks. -/
theorem finditerEmbF_refs : ∀ (f : Nat) (pos : Nat) (l : Chars), l.length ≤ f →
    (finditerEmbF f pos l).map (fun m => (m.2.2.1, m.2.2.2)) =
      (chunksEmbF f l).filterMap
        (fun ch => match ch with
          | EmbChunk.ref a p => some (a, p)
          | EmbChunk.lit _ => none) := by
  intro f
  induction f with
  | zero =>
    intro pos l h1
    have : l = [] := List.length_eq_zero.mp (Nat.le_zero.mp h1)
    subst this
    rfl
  | succ g ih =>
    intro pos l h1
    match l with
    | [] => rfl
    | c :: r =>
      simp only [finditerEmbF, chunksEmbF]
      rcases hm : matchEmbAt (c :: r) with _ | ⟨alt, path, len⟩
      · simp only [List.filterMap_cons]
        exact ih (pos + 1) r (by simpa using h1)
      · obtain ⟨hpos, hle⟩ := matchEmbAt_len hm
        have hdr : ((c :: r).drop len).length ≤ g := by
          rw [List.length_drop]
          simp only [List.length_cons] at h1 ⊢
          omega
        simp only [List.map_cons, List.filterMap_cons]
        rw [ih (pos + len) _ hdr]

/-! ### Idempotence of the local image embedder

Key structural lemmas: where no match can start, the scan copies the text;
a replacement or kept reference offers no new match start; a kept reference
matches again with the same groups. -/

theorem matchEmbAt_none_head {c : Char} (t : Chars) (hc : c ≠ '!') :
    matchEmbAt (c :: t) = none := by
  match t with
  | [] => rfl
  | z :: t' =>
    rw [matchEmbAt]
    rw [if_neg (fun hh => hc hh.1)]

theorem matchEmbAt_none_second (c z : Char) (t : Chars) (hz : z ≠ '[') :
    matchEmbAt (c :: z :: t) = none := by
  rw [matchEmbAt]
  rw [if_neg (fun hh => hz hh.2)]

/-- A successful match decomposed for first-occurrence reasoning. -/
theorem matchEmbAt_decomp {l alt path : Chars} {len : Nat}
    (h : matchEmbAt l = some (alt, path, len)) :
    ∃ dr, l = ('!' :: '[' :: alt) ++ ']' :: '(' :: (path ++ ')' :: dr) ∧
      laFail (path ++ ')' :: dr) = false ∧
      ']' ∉ ('!' :: '[' :: alt) ∧ ')' ∉ path ∧ path ≠ [] := by
  obtain ⟨halt, hpath, hne, hlen, hdec, hla⟩ := matchEmbAt_eq h
  refine ⟨l.drop len, ?_, hla, ?_, hpath, hne⟩
  · rw [embKeep_append] at hdec
    conv_lhs => rw [hdec]
    simp
  · intro hmem
    rcases List.mem_cons.mp hmem with h1 | h1
    · exact absurd h1.symm (by decide)
    rcases List.mem_cons.mp h1 with h2 | h2
    · exact absurd h2.symm (by decide)
    · exact halt h2

theorem matchEmbAt_mem_br {l : Chars} {x : Chars × Chars × Nat}
    (h : matchEmbAt l = some x) : ']' ∈ l := by
  obtain ⟨alt, path, len⟩ := x
  obtain ⟨dr, hdec, -, -, -, -⟩ := matchEmbAt_decomp h
  rw [hdec]
  simp

theorem matchEmbAt_mem_pr {l : Chars} {x : Chars × Chars × Nat}
    (h : matchEmbAt l = some x) : ')' ∈ l := by
  obtain ⟨alt, path, len⟩ := x
  obtain ⟨dr, hdec, -, -, -, -⟩ := matchEmbAt_decomp h
  rw [hdec]
  simp

theorem leadsWith_iff {n l : Chars} : leadsWith n l = true ↔ ∃ z, l = n ++ z := by
  induction n generalizing l with
  | nil => simp [leadsWith]
  | cons a n' ih =>
    match l with
    | [] => simp [leadsWith]
    | b :: l' =>
      simp only [leadsWith, Bool.and_eq_true, decide_eq_true_eq]
      constructor
      · rintro ⟨rfl, hlw⟩
        obtain ⟨z, rfl⟩ := ih.mp hlw
        exact ⟨z, rfl⟩
      · rintro ⟨z, hz⟩
        simp only [List.cons_append, List.cons.injEq] at hz
        obtain ⟨rfl, hz2⟩ := hz
        exact ⟨rfl, ih.mpr ⟨z, hz2⟩⟩

theorem leadsWith_self (n z : Chars) : leadsWith n (n ++ z) = true :=
  leadsWith_iff.mpr ⟨z, rfl⟩

/-- Where no match starts inside a prefix, the scan copies the prefix. -/
theorem goEmb_copy (fs : EmbFS) :
    ∀ (P X : Chars),
      (∀ Q R, P = Q ++ R → R ≠ [] → matchEmbAt (R ++ X) = none) →
      goEmb fs (P ++ X) = P ++ goEmb fs X := by
  intro P
  induction P with
  | nil => intro X _; rfl
  | cons c P' ih =>
    intro X hAll
    have hhead : matchEmbAt (c :: (P' ++ X)) = none := by
      have := hAll [] (c :: P') rfl (by simp)
      simpa using this
    have hstep : goEmb fs ((c :: P') ++ X) = c :: goEmb fs (P' ++ X) := by
      simpa using goEmb_none hhead
    rw [hstep, ih X (fun Q R hQR hR => hAll (c :: Q) R (by rw [hQR]; rfl) hR)]
    rfl

/-- Where no match starts at all, the scan is the identity. -/
theorem goEmb_id (fs : EmbFS) (l : Chars)
    (hAll : ∀ Q R, l = Q ++ R → R ≠ [] → matchEmbAt R = none) :
    goEmb fs l = l := by
  have := goEmb_copy fs l [] (fun Q R hQR hR => by
    rw [List.append_nil]
    exact hAll Q R (by simpa using hQR) hR)
  simpa [goEmb_nil] using this

/-- The scan of a bracket-free text is the identity. -/
theorem goEmb_id_no_br (fs : EmbFS) (l : Chars) (hl : ']' ∉ l) :
    goEmb fs l = l := by
  apply goEmb_id
  intro Q R hQR hR
  rcases hm : matchEmbAt R with _ | x
  · rfl
  · exfalso
    exact hl (by rw [hQR]; exact List.mem_append_right Q (matchEmbAt_mem_br hm))

/-- The head of the scan of a nonempty text is the original head or the
start of a replaced or kept reference. -/
theorem goEmb_head (fs : EmbFS) (d : Char) (w : Chars) :
    ∃ z zs, goEmb fs (d :: w) = z :: zs ∧ (z = d ∨ z = '!') := by
  rcases hm : matchEmbAt (d :: w) with _ | ⟨alt, path, len⟩
  · exact ⟨d, goEmb fs w, goEmb_none hm, Or.inl rfl⟩
  · rcases hfs : fs path with _ | mp
    · rw [goEmb_match hm, hfs, matchEmbAt_take hm, embKeep_cons]
      exact ⟨'!', _, rfl, Or.inr rfl⟩
    · have hrepl : embRepl alt mp =
          '!' :: '[' :: (alt ++ ']' :: '(' :: (dataUri mp.1 mp.2 ++ [')'])) := by
        simp [embRepl, String.data]
      rw [goEmb_match hm, hfs]
      show ∃ z zs, embRepl alt mp ++ goEmb fs (List.drop len (d :: w)) = z :: zs ∧
        (z = d ∨ z = '!')
      rw [hrepl]
      exact ⟨'!', _, rfl, Or.inr rfl⟩

/-- Inversion at the first closing bracket: a match of a text whose first
closing bracket is explicit determines the shape of both sides. -/
theorem matchEmbAt_inv_br {y V : Chars} (hy : ']' ∉ y) {x : Chars × Chars × Nat}
    (h : matchEmbAt (y ++ ']' :: V) = some x) :
    ∃ a p dr, y = '!' :: '[' :: a ∧ V = '(' :: (p ++ ')' :: dr) ∧
      laFail (p ++ ')' :: dr) = false ∧ ')' ∉ p ∧ p ≠ [] := by
  obtain ⟨alt, path, len⟩ := x
  obtain ⟨dr, hdec, hla, hbr, hpr, hne⟩ := matchEmbAt_decomp h
  have huniq := first_occ_unique hy hbr hdec
  exact ⟨alt, path, dr, huniq.1, huniq.2, hla, hpr, hne⟩

/-- A nonempty suffix of a text without exclamation marks starts with a
character that cannot begin a match. -/
theorem matchEmbAt_none_tail {cc R S : Chars} (X : Chars) (hR : R ≠ [])
    (hS : S = cc ++ R) (hmem : '!' ∉ S) : matchEmbAt (R ++ X) = none := by
  match R with
  | r0 :: R' =>
    apply matchEmbAt_none_head
    intro hr0
    apply hmem
    rw [hS, hr0]
    exact List.mem_append_right cc (List.mem_cons_self _ _)

/-- A text whose only closing bracket is final is fixed by the scan. -/
theorem goEmb_final_br (fs : EmbFS) (x : Chars) (hx : ']' ∉ x) :
    goEmb fs (x ++ [']']) = x ++ [']'] := by
  apply goEmb_id
  intro Q R hQR hR
  rcases hm : matchEmbAt R with _ | v
  · rfl
  exfalso
  rcases List.append_eq_append_iff.mp hQR.symm with ⟨y, hA, hRy⟩ | ⟨cc, hQ, hcc⟩
  · have hy : ']' ∉ y := fun hmem => hx (by rw [hA]; exact List.mem_append_right Q hmem)
    rw [hRy] at hm
    have hm' : matchEmbAt (y ++ ']' :: ([] : Chars)) = some v := by simpa using hm
    obtain ⟨a, p, dr, -, hV, -, -, -⟩ := matchEmbAt_inv_br hy hm'
    exact List.noConfusion hV
  · match cc, hcc with
    | [], hcc =>
      have hR1 : R = [']'] := by simpa using hcc.symm
      rw [hR1] at hm
      exact Option.noConfusion hm
    | c :: cc', hcc =>
      have h2 : ([] : Chars) = cc' ++ R := by
        have h3 := hcc
        simp only [List.cons_append, List.cons.injEq] at h3
        exact h3.2
      have hR0 : R = [] := (List.append_eq_nil.mp h2.symm).2
      exact hR hR0

/-- No match starts inside a replacement written for an existing file,
whatever follows it, provided MIME type and payload contain no
exclamation mark (real MIME names and base64 text never do). -/
theorem noMatch_in_embRepl {alt mime payload : Chars} (halt : ']' ∉ alt)
    (hm : '!' ∉ mime) (hb : '!' ∉ payload) :
    ∀ Q R X, embRepl alt (mime, payload) = Q ++ R → R ≠ [] →
      matchEmbAt (R ++ X) = none := by
  intro Q R X hsplit hR
  have hdecomp : embRepl alt (mime, payload) =
      ('!' :: '[' :: alt) ++ ']' :: '(' ::
        ("data:".data ++ mime ++ ";base64,".data ++ payload ++ [')']) := by
    simp [embRepl, dataUri, String.data]
  rw [hdecomp] at hsplit
  rcases hm2 : matchEmbAt (R ++ X) with _ | v
  · rfl
  exfalso
  rcases List.append_eq_append_iff.mp hsplit.symm with ⟨y, hA, hRy⟩ | ⟨cc, hQ, hcc⟩
  · have hy : ']' ∉ y := by
      intro hmem
      have hmem2 : (']' : Char) ∈ '!' :: '[' :: alt := by
        rw [hA]; exact List.mem_append_right Q hmem
      rcases List.mem_cons.mp hmem2 with h1 | h1
      · exact absurd h1 (by decide)
      rcases List.mem_cons.mp h1 with h2 | h2
      · exact absurd h2 (by decide)
      · exact halt h2
    rw [hRy, List.append_assoc] at hm2
    have hm2' : matchEmbAt (y ++ ']' ::
        ('(' :: ("data:".data ++ mime ++ ";base64,".data ++ payload ++ [')'] ++ X))) =
        some v := by
      rw [show (']' :: '(' ::
          ("data:".data ++ mime ++ ";base64,".data ++ payload ++ [')'])) ++ X =
          ']' :: ('(' :: ("data:".data ++ mime ++ ";base64,".data ++ payload ++ [')'] ++ X))
        from by simp] at hm2
      exact hm2
    obtain ⟨a, p, dr, -, hV, hla, -, -⟩ := matchEmbAt_inv_br hy hm2'
    simp only [List.cons.injEq] at hV
    have hTrue : laFail (p ++ ')' :: dr) = true := by
      rw [← hV.2]
      unfold laFail
      rw [show "data:".data ++ mime ++ ";base64,".data ++ payload ++ [')'] ++ X =
        "data:".data ++ (mime ++ ";base64,".data ++ payload ++ [')'] ++ X) from by simp,
        leadsWith_self]
      simp
    rw [hla] at hTrue
    exact Bool.noConfusion hTrue
  · match cc, hcc with
    | [], hcc =>
      have hR2 : R = ']' :: '(' ::
          ("data:".data ++ mime ++ ";base64,".data ++ payload ++ [')']) := by
        simpa using hcc.symm
      rw [hR2] at hm2
      simp only [List.cons_append] at hm2
      rw [matchEmbAt_none_head (c := ']') _ (by decide)] at hm2
      exact Option.noConfusion hm2
    | c :: cc', hcc =>
      have htail : '(' :: ("data:".data ++ mime ++ ";base64,".data ++ payload ++ [')']) =
          cc' ++ R := by
        have h3 := hcc
        simp only [List.cons_append, List.cons.injEq] at h3
        exact h3.2
      have hnotex : '!' ∉ '(' ::
          ("data:".data ++ mime ++ ";base64,".data ++ payload ++ [')']) := by
        intro hmem
        have hd : "data:".data = ['d', 'a', 't', 'a', ':'] := by decide
        have hsb : ";base64,".data = [';', 'b', 'a', 's', 'e', '6', '4', ','] := by decide
        rw [hd, hsb] at hmem
        simp +decide only [List.mem_cons, List.mem_append, List.mem_singleton,
          List.not_mem_nil, false_or, or_false] at hmem
        rcases hmem with h1 | h1
        · exact hm h1
        · exact hb h1
      rw [matchEmbAt_none_tail X hR htail hnotex] at hm2
      exact Option.noConfusion hm2

/-- A kept reference matches again with the same groups, whatever follows. -/
theorem matchEmbAt_again {alt path : Chars} (halt : ']' ∉ alt)
    (hpath : ')' ∉ path) (hne : path ≠ []) {t : Chars}
    (hla : laFail (path ++ ')' :: t) = false) (t' : Chars) :
    matchEmbAt (embKeep alt path ++ t') =
      some (alt, path, alt.length + path.length + 5) := by
  apply matchEmbAt_of t' halt hpath hne
  rw [laFail_stable hpath t' t]
  exact hla

/-- Evaluation of a match attempt whose first closing bracket is explicit. -/
theorem matchEmbAt_eval (u V : Chars) (hu : ']' ∉ u) :
    matchEmbAt ('!' :: '[' :: (u ++ ']' :: V)) =
      (match V with
       | [] => none
       | c3 :: r3 =>
         if c3 = '(' then
           if laFail r3 then none
           else match splitFirst ')' r3 with
             | none => none
             | some (path, _) =>
               if path.isEmpty then none
               else some (u, path, u.length + path.length + 5)
         else none) := by
  rw [matchEmbAt, if_pos ⟨rfl, rfl⟩, splitFirst_of u V hu]

theorem laFail_pr (z : Chars) : laFail (')' :: z) = false := by
  have h1 : "data:".data = ['d', 'a', 't', 'a', ':'] := by decide
  have h2 : "http://".data = ['h', 't', 't', 'p', ':', '/', '/'] := by decide
  have h3 : "https://".data = ['h', 't', 't', 'p', 's', ':', '/', '/'] := by decide
  unfold laFail
  rw [h1, h2, h3]
  simp [leadsWith]

/-- A true lookahead exhibits one of its three needles as a prefix. -/
theorem laFail_lead {w : Chars} (h : laFail w = true) :
    ∃ lead w2, w = lead ++ w2 ∧ '!' ∉ lead ∧ (∀ z, laFail (lead ++ z) = true) := by
  unfold laFail at h
  rcases (Bool.or_eq_true _ _).mp h with h12 | h3
  · rcases (Bool.or_eq_true _ _).mp h12 with h1 | h2
    · obtain ⟨z, hz⟩ := leadsWith_iff.mp h1
      refine ⟨"data:".data, z, hz, by decide, fun z' => ?_⟩
      unfold laFail
      rw [leadsWith_self]
      simp
    · obtain ⟨z, hz⟩ := leadsWith_iff.mp h2
      refine ⟨"http://".data, z, hz, by decide, fun z' => ?_⟩
      unfold laFail
      rw [leadsWith_self]
      simp
  · obtain ⟨z, hz⟩ := leadsWith_iff.mp h3
    refine ⟨"https://".data, z, hz, by decide, fun z' => ?_⟩
    unfold laFail
    rw [leadsWith_self]
    simp

/-- Core stability: a position where the pattern does not match still does
not match after the scan rewrites the rest of the text. -/
theorem matchEmbAt_none_stable (fs : EmbFS) {c : Char} {t : Chars}
    (h : matchEmbAt (c :: t) = none) :
    matchEmbAt (c :: goEmb fs t) = none := by
  by_cases hc : c = '!'
  case neg => exact matchEmbAt_none_head _ hc
  subst hc
  match t, h with
  | [], h => exact h
  | b :: w0, h =>
    by_cases hb : b = '['
    case neg =>
      obtain ⟨z, zs, hgo, hz⟩ := goEmb_head fs b w0
      rw [hgo]
      apply matchEmbAt_none_second
      rcases hz with rfl | rfl
      · exact hb
      · decide
    subst hb
    rcases hsp : splitFirst ']' w0 with _ | ⟨u, v⟩
    · -- (a) no closing bracket at all: the scan is the identity
      have hbr : ']' ∉ w0 := splitFirst_none.mp hsp
      have hbr2 : ']' ∉ ('[' :: w0) := by
        intro hmem
        rcases List.mem_cons.mp hmem with h1 | h1
        · exact absurd h1.symm (by decide)
        · exact hbr h1
      rw [goEmb_id_no_br fs _ hbr2]
      exact h
    · obtain ⟨hw, hu⟩ := splitFirst_eq hsp
      have hbru : ']' ∉ ('[' :: u) := by
        intro hmem
        rcases List.mem_cons.mp hmem with h1 | h1
        · exact absurd h1.symm (by decide)
        · exact hu h1
      match v, hw with
      | [], hw =>
        -- (b1) the only closing bracket is final: the scan is the identity
        rw [hw]
        rw [show ('[' :: (u ++ [']'])) = ('[' :: u) ++ [']'] from by simp]
        rw [goEmb_final_br fs ('[' :: u) hbru]
        rw [show (('[' :: u) ++ [']']) = '[' :: (u ++ [']']) from by simp, ← hw]
        exact h
      | d :: w1, hw =>
        by_cases hd : d = '('
        case neg =>
          -- (b2) the first closing bracket is not followed by a parenthesis
          have hP : ∀ Q R, ('[' :: u) ++ [']'] = Q ++ R → R ≠ [] →
              matchEmbAt (R ++ (d :: w1)) = none := by
            intro Q R hQR hR
            rcases hm2 : matchEmbAt (R ++ (d :: w1)) with _ | x
            · rfl
            exfalso
            rcases List.append_eq_append_iff.mp hQR.symm with ⟨y, hA, hRy⟩ | ⟨cc, hQ, hcc⟩
            · have hy : ']' ∉ y := fun hmem =>
                hbru (by rw [hA]; exact List.mem_append_right Q hmem)
              rw [hRy, List.append_assoc] at hm2
              obtain ⟨a, p, dr, -, hV, -, -, -⟩ := matchEmbAt_inv_br hy hm2
              have hVh : d = '(' := by
                have hh := congrArg List.head? hV
                simpa using hh
              exact hd hVh
            · rw [matchEmbAt_none_tail (d :: w1) hR hcc (by decide)] at hm2
              exact Option.noConfusion hm2
          have hgo : goEmb fs ('[' :: w0) = ('[' :: u) ++ ']' :: goEmb fs (d :: w1) := by
            rw [hw]
            rw [show ('[' :: (u ++ ']' :: (d :: w1))) = (('[' :: u) ++ [']']) ++ (d :: w1)
              from by simp]
            rw [goEmb_copy fs _ _ hP]
            simp
          rw [hgo]
          rw [show ('!' :: (('[' :: u) ++ ']' :: goEmb fs (d :: w1))) =
            '!' :: '[' :: (u ++ ']' :: goEmb fs (d :: w1)) from by simp]
          rw [matchEmbAt_eval u _ hu]
          obtain ⟨z, zs, hgo2, hz⟩ := goEmb_head fs d w1
          rw [hgo2]
          have hz1 : z ≠ '(' := by
            rcases hz with rfl | rfl
            · exact hd
            · decide
          simp [hz1]
        subst hd
        by_cases hla : laFail w1
        · -- (b3i) the target would start with data: or a network address
          obtain ⟨lead, w2, hw2, hleadnot, hleadA⟩ := laFail_lead hla
          have hP : ∀ Q R, (('[' :: u) ++ ']' :: '(' :: lead) = Q ++ R → R ≠ [] →
              matchEmbAt (R ++ w2) = none := by
            intro Q R hQR hR
            rcases hm2 : matchEmbAt (R ++ w2) with _ | x
            · rfl
            exfalso
            rcases List.append_eq_append_iff.mp hQR.symm with ⟨y, hA, hRy⟩ | ⟨cc, hQ, hcc⟩
            · have hy : ']' ∉ y := fun hmem =>
                hbru (by rw [hA]; exact List.mem_append_right Q hmem)
              rw [hRy, List.append_assoc] at hm2
              have hm2' : matchEmbAt (y ++ ']' :: ('(' :: (lead ++ w2))) = some x := by
                rw [show (']' :: '(' :: lead) ++ w2 = ']' :: ('(' :: (lead ++ w2))
                  from by simp] at hm2
                exact hm2
              obtain ⟨a, p, dr, -, hV, hlaV, -, -⟩ := matchEmbAt_inv_br hy hm2'
              simp only [List.cons.injEq] at hV
              have hfalse : laFail (lead ++ w2) = false := by
                rw [hV.2]
                exact hlaV
              rw [hleadA w2] at hfalse
              exact Bool.noConfusion hfalse
            · have hnotex : '!' ∉ (']' :: '(' :: lead) := by
                intro hmem
                rcases List.mem_cons.mp hmem with h1 | h1
                · exact absurd h1 (by decide)
                rcases List.mem_cons.mp h1 with h2 | h2
                · exact absurd h2 (by decide)
                · exact hleadnot h2
              rw [matchEmbAt_none_tail w2 hR hcc hnotex] at hm2
              exact Option.noConfusion hm2
          have hgo : goEmb fs ('[' :: w0) =
              (('[' :: u) ++ ']' :: '(' :: lead) ++ goEmb fs w2 := by
            rw [hw, hw2]
            rw [show ('[' :: (u ++ ']' :: '(' :: (lead ++ w2))) =
              (('[' :: u) ++ ']' :: '(' :: lead) ++ w2 from by simp]
            rw [goEmb_copy fs _ _ hP]
          rw [hgo]
          rw [show ('!' :: ((('[' :: u) ++ ']' :: '(' :: lead) ++ goEmb fs w2)) =
            '!' :: '[' :: (u ++ ']' :: ('(' :: (lead ++ goEmb fs w2))) from by simp]
          rw [matchEmbAt_eval u _ hu]
          simp [hleadA (goEmb fs w2)]
        · have hlaf : laFail w1 = false := by simpa using hla
          rcases hsp2 : splitFirst ')' w1 with _ | ⟨p0, w2⟩
          · -- (b3ii) no closing parenthesis: the scan is the identity
            have hpr : ')' ∉ w1 := splitFirst_none.mp hsp2
            have hAll : ∀ Q R, ('[' :: w0) = Q ++ R → R ≠ [] → matchEmbAt R = none := by
              intro Q R hQR hR
              rcases hm2 : matchEmbAt R with _ | x
              · rfl
              exfalso
              have hQR' : ('[' :: u) ++ (']' :: '(' :: w1) = Q ++ R := by
                rw [← hQR, hw]
                simp
              rcases List.append_eq_append_iff.mp hQR'.symm with ⟨y, hA, hRy⟩ | ⟨cc, hQ, hcc⟩
              · have hy : ']' ∉ y := fun hmem =>
                  hbru (by rw [hA]; exact List.mem_append_right Q hmem)
                rw [hRy] at hm2
                obtain ⟨a, p, dr, -, hV, -, -, -⟩ := matchEmbAt_inv_br hy hm2
                have hmemw : (')' : Char) ∈ '(' :: w1 := by
                  rw [hV]
                  simp
                rcases List.mem_cons.mp hmemw with h1 | h1
                · exact absurd h1 (by decide)
                · exact hpr h1
              · have hmemw : (')' : Char) ∈ (']' :: '(' :: w1) := by
                  rw [hcc]
                  exact List.mem_append_right cc (matchEmbAt_mem_pr hm2)
                rcases List.mem_cons.mp hmemw with h1 | h1
                · exact absurd h1 (by decide)
                rcases List.mem_cons.mp h1 with h2 | h2
                · exact absurd h2 (by decide)
                · exact hpr h2
            rw [goEmb_id fs _ hAll]
            exact h
          · obtain ⟨hw1, hp0pr⟩ := splitFirst_eq hsp2
            by_cases hp0 : p0 = []
            · -- (b3iii) empty path: the match attempt keeps failing
              subst hp0
              simp only [List.nil_append] at hw1
              have hP : ∀ Q R, (('[' :: u) ++ ']' :: '(' :: [')']) = Q ++ R → R ≠ [] →
                  matchEmbAt (R ++ w2) = none := by
                intro Q R hQR hR
                rcases hm2 : matchEmbAt (R ++ w2) with _ | x
                · rfl
                exfalso
                rcases List.append_eq_append_iff.mp hQR.symm with ⟨y, hA, hRy⟩ | ⟨cc, hQ, hcc⟩
                · have hy : ']' ∉ y := fun hmem =>
                    hbru (by rw [hA]; exact List.mem_append_right Q hmem)
                  rw [hRy, List.append_assoc] at hm2
                  have hm2' : matchEmbAt (y ++ ']' :: ('(' :: (')' :: w2))) = some x := by
                    rw [show (']' :: '(' :: [')']) ++ w2 = ']' :: ('(' :: (')' :: w2))
                      from by simp] at hm2
                    exact hm2
                  obtain ⟨a, p, dr, -, hV, -, hppr, hpne⟩ := matchEmbAt_inv_br hy hm2'
                  simp only [List.cons.injEq] at hV
                  match p, hpne, hV.2 with
                  | q :: p', _, hV2 =>
                    have hq : q = ')' := by
                      have hh := congrArg (fun l => List.head? l) hV2
                      simpa using hh.symm
                    exact hppr (by rw [← hq]; exact List.mem_cons_self _ _)
                · rw [matchEmbAt_none_tail w2 hR hcc (by decide)] at hm2
                  exact Option.noConfusion hm2
              have hgo : goEmb fs ('[' :: w0) =
                  (('[' :: u) ++ ']' :: '(' :: [')']) ++ goEmb fs w2 := by
                rw [hw, hw1]
                rw [show ('[' :: (u ++ ']' :: '(' :: (')' :: w2))) =
                  (('[' :: u) ++ ']' :: '(' :: [')']) ++ w2 from by simp]
                rw [goEmb_copy fs _ _ hP]
              rw [hgo]
              rw [show ('!' :: ((('[' :: u) ++ ']' :: '(' :: [')']) ++ goEmb fs w2)) =
                '!' :: '[' :: (u ++ ']' :: ('(' :: (')' :: goEmb fs w2))) from by simp]
              rw [matchEmbAt_eval u _ hu]
              simp [laFail_pr, splitFirst]
            · -- (b3iv) everything in place: the head would have matched
              exfalso
              rw [hw, hw1] at h
              have h' : matchEmbAt (embKeep u p0 ++ w2) = none := by
                rw [embKeep_append]
                exact h
              rw [matchEmbAt_of w2 hu hp0pr hp0 (by rw [← hw1]; exact hlaf)] at h'
              exact Option.noConfusion h'

/-- The scan of embed_local_images is idempotent over a fixed filesystem. -/
theorem goEmb_idem (fs : EmbFS) (hfs : GoodFS fs) :
    ∀ (n : Nat) (l : Chars), l.length ≤ n →
      goEmb fs (goEmb fs l) = goEmb fs l := by
  intro n
  induction n with
  | zero =>
    intro l h1
    have : l = [] := List.length_eq_zero.mp (Nat.le_zero.mp h1)
    subst this
    rfl
  | succ g ih =>
    intro l h1
    rcases hm : matchEmbAt l with _ | ⟨alt, path, len⟩
    · match l, hm with
      | [], hm => rfl
      | c :: r, hm =>
        rw [goEmb_none hm]
        rw [goEmb_none (matchEmbAt_none_stable fs hm)]
        rw [ih r (by simpa using h1)]
    · obtain ⟨halt, hpath, hne, hlen, hdec, hla⟩ := matchEmbAt_eq hm
      obtain ⟨hpos, hle⟩ := matchEmbAt_len hm
      have hdr : (l.drop len).length ≤ g := by
        rw [List.length_drop]
        omega
      rw [goEmb_match hm]
      rcases hfsp : fs path with _ | mp
      · -- missing file: the kept reference matches again and is kept again
        show goEmb fs (l.take len ++ goEmb fs (l.drop len)) =
          l.take len ++ goEmb fs (l.drop len)
        rw [matchEmbAt_take hm]
        have hagain := matchEmbAt_again halt hpath hne hla (goEmb fs (l.drop len))
        rw [goEmb_match hagain, hfsp]
        have htk : (embKeep alt path ++ goEmb fs (l.drop len)).take
            (alt.length + path.length + 5) = embKeep alt path :=
          List.take_left' (embKeep_length alt path)
        have hdp : (embKeep alt path ++ goEmb fs (l.drop len)).drop
            (alt.length + path.length + 5) = goEmb fs (l.drop len) :=
          List.drop_left' (embKeep_length alt path)
        show (embKeep alt path ++ goEmb fs (l.drop len)).take
              (alt.length + path.length + 5) ++
            goEmb fs ((embKeep alt path ++ goEmb fs (l.drop len)).drop
              (alt.length + path.length + 5)) =
          embKeep alt path ++ goEmb fs (l.drop len)
        rw [htk, hdp, ih _ hdr]
      · -- existing file: no match starts inside the replacement
        show goEmb fs (embRepl alt mp ++ goEmb fs (l.drop len)) =
          embRepl alt mp ++ goEmb fs (l.drop len)
        obtain ⟨m, b⟩ := mp
        obtain ⟨hm1, hb1⟩ := hfs path m b hfsp
        rw [goEmb_copy fs _ _
          (fun Q R hQR hR => noMatch_in_embRepl halt hm1 hb1 Q R _ hQR hR)]
        rw [ih _ hdr]

/-- A successful placeholder match has positive length within the text. -/
theorem matchImgAt_pos {l desc : Chars} {len : Nat}
    (h : matchImgAt l = some (desc, len)) : 0 < len := by
  match l with
  | [] => exact absurd h (by simp [matchImgAt])
  | [c] => exact absurd h (by simp [matchImgAt])
  | c1 :: c2 :: r =>
    rw [matchImgAt] at h
    by_cases h12 : c1 = '!' ∧ c2 = '['
    · rw [if_pos h12] at h
      rcases h1 : stripCI "image".data r with _ | r1
      · rw [h1] at h; exact absurd h (by simp)
      · rw [h1] at h
        match r1 with
        | [] => exact absurd h (by simp)
        | [c3] => exact absurd h (by simp)
        | c3 :: c4 :: r2 =>
          simp only at h
          by_cases h34 : c3 = ']' ∧ c4 = '('
          · rw [if_pos h34] at h
            rcases h2 : splitFirst ')' r2 with _ | ⟨desc', r3⟩
            · rw [h2] at h; exact absurd h (by simp)
            · rw [h2] at h
              simp only at h
              by_cases hnl : '\n' ∈ desc'
              · rw [if_pos hnl] at h; exact absurd h (by simp)
              · rw [if_neg hnl] at h
                simp only [Option.some.injEq, Prod.mk.injEq] at h
                omega
          · rw [if_neg h34] at h; exact absurd h (by simp)
    · rw [if_neg h12] at h; exact absurd h (by simp)

theorem goImgF_nil (gen : ImgGen) : ∀ f, goImgF gen f [] = [] := by
  intro f; cases f <;> rfl

/-- Any sufficient fuel computes the same scan. -/
theorem goImgF_fuel (gen : ImgGen) :
    ∀ (f1 : Nat) (l : Chars) (f2 : Nat), l.length ≤ f1 → l.length ≤ f2 →
      goImgF gen f1 l = goImgF gen f2 l := by
  intro f1
  induction f1 with
  | zero =>
    intro l f2 h1 _
    have : l = [] := List.length_eq_zero.mp (Nat.le_zero.mp h1)
    subst this
    rw [goImgF_nil, goImgF_nil]
  | succ g ih =>
    intro l f2 h1 h2
    match l with
    | [] => rw [goImgF_nil, goImgF_nil]
    | c :: r =>
      match f2 with
      | 0 => exact absurd h2 (by simp)
      | g2 + 1 =>
        simp only [goImgF]
        rcases hm : matchImgAt (c :: r) with _ | ⟨desc, len⟩
        · simp only
          rw [ih r g2 (by simpa using h1) (by simpa using h2)]
        · simp only
          have hpos := matchImgAt_pos hm
          have hd1 : ((c :: r).drop len).length ≤ g := by
            rw [List.length_drop]
            simp only [List.length_cons] at h1 ⊢
            omega
          have hd2 : ((c :: r).drop len).length ≤ g2 := by
            rw [List.length_drop]
            simp only [List.length_cons] at h2 ⊢
            omega
          rw [ih _ g2 hd1 hd2]

/-- Step equation of the scanner at a matching position. -/
theorem goImg_match {gen : ImgGen} {l desc : Chars} {len : Nat}
    (h : matchImgAt l = some (desc, len)) :
    goImg gen l = imgRepl gen desc ++ goImg gen (l.drop len) := by
  match l with
  | [] => simp [matchImgAt] at h
  | c :: r =>
    show goImgF gen (r.length + 1) (c :: r) = _
    simp only [goImgF]
    rw [h]
    simp only
    have hpos := matchImgAt_pos h
    have hlen : ((c :: r).drop len).length ≤ r.length := by
      rw [List.length_drop]
      simp only [List.length_cons]
      omega
    rw [goImgF_fuel gen r.length _ _ hlen (le_refl _)]
    rfl

/-- Step equation of the scanner at a non-matching position. -/
theorem goImg_none {gen : ImgGen} {c : Char} {r : Chars}
    (h : matchImgAt (c :: r) = none) :
    goImg gen (c :: r) = c :: goImg gen r := by
  show goImgF gen (r.length + 1) (c :: r) = _
  simp only [goImgF]
  rw [h]
  rfl

theorem stripCI_length :
    ∀ {n h rest : Chars}, stripCI n h = some rest → h.length = n.length + rest.length := by
  intro n
  induction n with
  | nil => intro h rest hh; simp [stripCI] at hh; simp [hh]
  | cons a n' ih =>
    intro h rest hh
    match h with
    | [] => simp [stripCI] at hh
    | b :: h' =>
      rw [stripCI] at hh
      by_cases hab : b.toLower = a.toLower
      · rw [if_pos hab] at hh
        have := ih hh
        simp [this]
        omega
      · rw [if_neg hab] at hh
        exact Option.noConfusion hh

/-- A successful placeholder match lies within the text. -/
theorem matchImgAt_le {l desc : Chars} {len : Nat}
    (h : matchImgAt l = some (desc, len)) : len ≤ l.length := by
  match l with
  | [] => exact absurd h (by simp [matchImgAt])
  | [c] => exact absurd h (by simp [matchImgAt])
  | c1 :: c2 :: r =>
    rw [matchImgAt] at h
    by_cases h12 : c1 = '!' ∧ c2 = '['
    · rw [if_pos h12] at h
      rcases h1 : stripCI "image".data r with _ | r1
      · rw [h1] at h; exact absurd h (by simp)
      · rw [h1] at h
        have hr : r.length = 5 + r1.length := by
          have := stripCI_length h1
          simpa using this
        match r1, hr with
        | [], hr => exact absurd h (by simp)
        | [c3], hr => exact absurd h (by simp)
        | c3 :: c4 :: r2, hr =>
          simp only at h
          by_cases h34 : c3 = ']' ∧ c4 = '('
          · rw [if_pos h34] at h
            rcases h2 : splitFirst ')' r2 with _ | ⟨desc', r3⟩
            · rw [h2] at h; exact absurd h (by simp)
            · rw [h2] at h
              simp only at h
              by_cases hnl : '\n' ∈ desc'
              · rw [if_pos hnl] at h; exact absurd h (by simp)
              · rw [if_neg hnl] at h
                simp only [Option.some.injEq, Prod.mk.injEq] at h
                obtain ⟨rfl, rfl⟩ := h
                obtain ⟨hr2, -⟩ := splitFirst_eq h2
                have hr2len : r2.length = desc'.length + 1 + r3.length := by
                  rw [hr2]
                  simp
                  omega
                simp only [List.length_cons] at hr ⊢
                omega
          · rw [if_neg h34] at h; exact absurd h (by simp)
    · rw [if_neg h12] at h; exact absurd h (by simp)

theorem finditerImgF_nil : ∀ f pos, finditerImgF f pos [] = [] := by
  intro f pos; cases f <;> rfl

/-- Applying the replacement list in reverse order equals direct scanning. -/
theorem spliceRev_eq_goImg (gen : ImgGen) :
    ∀ (f : Nat) (l pre : Chars), l.length ≤ f →
      spliceRev (imgReplacements gen (finditerImgF f pre.length l)) (pre ++ l) =
        pre ++ goImg gen l := by
  intro f
  induction f with
  | zero =>
    intro l pre h1
    have : l = [] := List.length_eq_zero.mp (Nat.le_zero.mp h1)
    subst this
    rfl
  | succ g ih =>
    intro l pre h1
    match l with
    | [] => rw [finditerImgF_nil]; rfl
    | c :: r =>
      rcases hm : matchImgAt (c :: r) with _ | ⟨desc, len⟩
      · show spliceRev (imgReplacements gen (finditerImgF (g + 1) pre.length (c :: r))) _ = _
        simp only [finditerImgF]
        rw [hm]
        have hr : r.length ≤ g := by simpa using h1
        have hkey := ih r (pre ++ [c]) hr
        rw [show (pre ++ [c]).length = pre.length + 1 from by simp] at hkey
        calc spliceRev (imgReplacements gen (finditerImgF g (pre.length + 1) r)) (pre ++ c :: r)
            = spliceRev (imgReplacements gen (finditerImgF g (pre.length + 1) r))
                ((pre ++ [c]) ++ r) := by simp
          _ = (pre ++ [c]) ++ goImg gen r := hkey
          _ = pre ++ (c :: goImg gen r) := by simp
          _ = pre ++ goImg gen (c :: r) := by rw [goImg_none hm]
      · show spliceRev (imgReplacements gen (finditerImgF (g + 1) pre.length (c :: r))) _ = _
        simp only [finditerImgF]
        rw [hm]
        have hpos := matchImgAt_pos hm
        have hle := matchImgAt_le hm
        simp only [List.length_cons] at hle
        have htk2 : (pre ++ (c :: r).take len).length = pre.length + len := by
          rw [List.length_append, List.length_take]
          simp only [List.length_cons]
          omega
        have hdr : ((c :: r).drop len).length ≤ g := by
          rw [List.length_drop]
          simp only [List.length_cons] at h1 ⊢
          omega
        have key := ih ((c :: r).drop len) (pre ++ (c :: r).take len) hdr
        rw [htk2] at key
        have hsplit : (pre ++ (c :: r).take len) ++ (c :: r).drop len = pre ++ c :: r := by
          rw [List.append_assoc, List.take_append_drop]
        rw [hsplit] at key
        simp only [imgReplacements, List.map_cons]
        rw [spliceRev_cons]
        rw [show List.map (fun m => (m.1, m.2.1, imgRepl gen m.2.2))
            (finditerImgF g (pre.length + len) ((c :: r).drop len)) =
          imgReplacements gen (finditerImgF g (pre.length + len) ((c :: r).drop len))
          from rfl]
        rw [goImg_match hm]
        rw [key]
        unfold spliceOne
        rw [← List.append_assoc]
        rw [List.take_append_of_le_length (by rw [htk2]; omega)]
        rw [List.take_left]
        rw [List.drop_left' htk2]

/-- process_images computes exactly the left-to-right scan. -/
theorem process_images_eq_go (gen : ImgGen) (content : String) :
    process_images gen content = ⟨goImg gen content.data⟩ := by
  unfold process_images finditerImg
  exact congrArg String.mk
    (by simpa using spliceRev_eq_goImg gen content.data.length content.data [] (le_refl _))

/-- The chunks of a text concatenate back to the text. -/
theorem chunksImgF_orig : ∀ (f : Nat) (l : Chars), l.length ≤ f →
    catMap origImg (chunksImgF f l) = l := by
  intro f
  induction f with
  | zero =>
    intro l h1
    have : l = [] := List.length_eq_zero.mp (Nat.le_zero.mp h1)
    subst this
    rfl
  | succ g ih =>
    intro l h1
    match l with
    | [] => rfl
    | c :: r =>
      show catMap origImg (chunksImgF (g + 1) (c :: r)) = c :: r
      simp only [chunksImgF]
      rcases hm : matchImgAt (c :: r) with _ | ⟨desc, len⟩
      · simp only [catMap]
        rw [ih r (by simpa using h1)]
        rfl
      · simp only [catMap, origImg]
        have hpos := matchImgAt_pos hm
        have hdr : ((c :: r).drop len).length ≤ g := by
          rw [List.length_drop]
          simp only [List.length_cons] at h1 ⊢
          omega
        rw [ih _ hdr]
        exact List.take_append_drop len (c :: r)

/-- The scan output is the chunkwise rendering. -/
theorem goImg_eq_chunks (gen : ImgGen) : ∀ (f : Nat) (l : Chars), l.length ≤ f →
    goImg gen l = catMap (renderImg gen) (chunksImgF f l) := by
  intro f
  induction f with
  | zero =>
    intro l h1
    have : l = [] := List.length_eq_zero.mp (Nat.le_zero.mp h1)
    subst this
    rfl
  | succ g ih =>
    intro l h1
    match l with
    | [] => rfl
    | c :: r =>
      simp only [chunksImgF]
      rcases hm : matchImgAt (c :: r) with _ | ⟨desc, len⟩
      · rw [goImg_none hm]
        simp only [catMap, renderImg]
        rw [ih r (by simpa using h1)]
        rfl
      · rw [goImg_match hm]
        simp only [catMap, renderImg]
        have hpos := matchImgAt_pos hm
        have hdr : ((c :: r).drop len).length ≤ g := by
          rw [List.length_drop]
          simp only [List.length_cons] at h1 ⊢
          omega
        rw [← ih _ hdr]

/-- Each substituted segment is an embedded data reference on success or the
network placeholder reference on failure. -/
theorem imgRepl_cases (gen : ImgGen) (desc : Chars) :
    (∃ b64, gen desc = some b64 ∧
      imgRepl gen desc =
        "![".data ++ desc ++ "](".data ++ dataUri "image/png".data b64 ++ ")".data) ∨
    (gen desc = none ∧ imgRepl gen desc = imgPlaceholder desc) := by
  unfold imgRepl
  rcases hg : gen desc with _ | b64
  · exact Or.inr ⟨rfl, rfl⟩
  · exact Or.inl ⟨b64, rfl, rfl⟩

mutual

/-- The tag loop rewrites every element's style by the per-element rule. -/
theorem elems_applyN (parent : Option String) (n : HNode) :
    elemsN parent (applyStylesN parent n) = (elemsN parent n).map styledTriple := by
  cases n with
  | htext s => rfl
  | elem t s ch =>
    simp only [applyStylesN, elemsN, List.map_cons, elems_applyL (some t) ch]
    rfl

theorem elems_applyL (parent : Option String) (l : List HNode) :
    elemsL parent (applyStylesL parent l) = (elemsL parent l).map styledTriple := by
  cases l with
  | nil => rfl
  | cons n r =>
    simp only [applyStylesL, elemsL, List.map_append,
      elems_applyN parent n, elems_applyL parent r]

end

mutual

/-- The lead-paragraph pass only prepends the lead style to the style of
one paragraph element; every element of the result corresponds to an
element of the input with the same parent and tag. -/
theorem elems_leadN (parent : Option String) (n : HNode) :
    ∀ pe ∈ elemsN parent (leadN n).1, ∃ pe' ∈ elemsN parent n,
      pe.1 = pe'.1 ∧ pe.2.1 = pe'.2.1 ∧
      (pe.2.2 = pe'.2.2 ∨
        (pe.2.1 = "p" ∧ pe.2.2 = some (first_p_style ++ " " ++ pe'.2.2.getD ""))) := by
  cases n with
  | htext s => intro pe hpe; exact absurd hpe (by simp [leadN, elemsN])
  | elem t s ch =>
    intro pe hpe
    by_cases ht : t = "p"
    · rw [leadN] at hpe
      rw [if_pos ht] at hpe
      simp only [elemsN] at hpe
      rcases List.mem_cons.mp hpe with h1 | h1
      · refine ⟨(parent, t, s), by simp [elemsN], ?_⟩
        subst h1
        exact ⟨rfl, rfl, Or.inr ⟨ht, rfl⟩⟩
      · exact ⟨pe, by simp [elemsN, h1], rfl, rfl, Or.inl rfl⟩
    · rw [leadN] at hpe
      rw [if_neg ht] at hpe
      rcases hlc : leadL ch with ⟨ch', found⟩
      rw [hlc] at hpe
      simp only [elemsN] at hpe
      rcases List.mem_cons.mp hpe with h1 | h1
      · exact ⟨(parent, t, s), by simp [elemsN], by subst h1; exact ⟨rfl, rfl, Or.inl rfl⟩⟩
      · have hch : ch' = (leadL ch).1 := by rw [hlc]
        rw [hch] at h1
        obtain ⟨pe', hpe', hfacts⟩ := elems_leadL (some t) ch pe h1
        exact ⟨pe', by simp [elemsN, hpe'], hfacts⟩

theorem elems_leadL (parent : Option String) (l : List HNode) :
    ∀ pe ∈ elemsL parent (leadL l).1, ∃ pe' ∈ elemsL parent l,
      pe.1 = pe'.1 ∧ pe.2.1 = pe'.2.1 ∧
      (pe.2.2 = pe'.2.2 ∨
        (pe.2.1 = "p" ∧ pe.2.2 = some (first_p_style ++ " " ++ pe'.2.2.getD ""))) := by
  cases l with
  | nil => intro pe hpe; exact absurd hpe (by simp [leadL, elemsL])
  | cons n r =>
    intro pe hpe
    rw [leadL] at hpe
    rcases hln : leadN n with ⟨n', fnd⟩
    rw [hln] at hpe
    cases fnd with
    | true =>
      simp only [elemsL] at hpe
      rcases List.mem_append.mp hpe with h1 | h1
      · have hn : n' = (leadN n).1 := by rw [hln]
        rw [hn] at h1
        obtain ⟨pe', hpe', hfacts⟩ := elems_leadN parent n pe h1
        exact ⟨pe', by simp [elemsL, hpe'], hfacts⟩
      · exact ⟨pe, by simp [elemsL, h1], rfl, rfl, Or.inl rfl⟩
    | false =>
      rcases hlr : leadL r with ⟨r', fnd'⟩
      rw [hlr] at hpe
      simp only [elemsL] at hpe
      rcases List.mem_append.mp hpe with h1 | h1
      · exact ⟨pe, by simp [elemsL, h1], rfl, rfl, Or.inl rfl⟩
      · have hr : r' = (leadL r).1 := by rw [hlr]
        rw [hr] at h1
        obtain ⟨pe', hpe', hfacts⟩ := elems_leadL parent r pe h1
        exact ⟨pe', by simp [elemsL, hpe'], hfacts⟩

end

/-- A removable paragraph has no non-whitespace text and no img. -/
theorem removable_elim {n : HNode} (h : removable n = true) :
    hasNonWs n = false ∧ hasImgN n = false := by
  cases n with
  | htext s => simp [removable] at h
  | elem t s ch =>
    simp only [removable, Bool.and_eq_true, Bool.not_eq_true', decide_eq_true_eq] at h
    obtain ⟨⟨ht, h1⟩, h2⟩ := h
    subst ht
    exact ⟨by simp [hasNonWs, h1], by simp [hasImgN, h2]⟩

mutual

theorem hasNonWs_remove (n : HNode) : hasNonWs (removeEmptyN n) = hasNonWs n := by
  cases n with
  | htext s => rfl
  | elem t s ch => simp only [removeEmptyN, hasNonWs, hasNonWsL_remove ch]

theorem hasNonWsL_remove (l : List HNode) : hasNonWsL (removeEmptyL l) = hasNonWsL l := by
  cases l with
  | nil => rfl
  | cons n r =>
    by_cases hr : removable n = true
    · simp only [removeEmptyL, if_pos hr, hasNonWsL, hasNonWsL_remove r,
        (removable_elim hr).1]
      simp
    · simp only [removeEmptyL, if_neg hr, hasNonWsL, hasNonWs_remove n, hasNonWsL_remove r]

end

mutual

theorem hasImg_remove (n : HNode) : hasImgN (removeEmptyN n) = hasImgN n := by
  cases n with
  | htext s => rfl
  | elem t s ch => simp only [removeEmptyN, hasImgN, hasImgL_remove ch]

theorem hasImgL_remove (l : List HNode) : hasImgL (removeEmptyL l) = hasImgL l := by
  cases l with
  | nil => rfl
  | cons n r =>
    by_cases hr : removable n = true
    · simp only [removeEmptyL, if_pos hr, hasImgL, hasImgL_remove r,
        (removable_elim hr).2]
      simp
    · simp only [removeEmptyL, if_neg hr, hasImgL, hasImg_remove n, hasImgL_remove r]

end

/-- Removal does not create or destroy removability of survivors. -/
theorem removable_remove (n : HNode) : removable (removeEmptyN n) = removable n := by
  cases n with
  | htext s => rfl
  | elem t s ch =>
    simp only [removeEmptyN, removable, hasNonWsL_remove ch, hasImgL_remove ch]

mutual

/-- The empty-paragraph removal pass is idempotent on nodes. -/
theorem removeEmptyN_idem (n : HNode) : removeEmptyN (removeEmptyN n) = removeEmptyN n := by
  cases n with
  | htext s => rfl
  | elem t s ch => simp only [removeEmptyN, removeEmptyL_idem ch]

/-- The empty-paragraph removal pass is idempotent on forests. -/
theorem removeEmptyL_idem (l : List HNode) : removeEmptyL (removeEmptyL l) = removeEmptyL l := by
  cases l with
  | nil => rfl
  | cons n r =>
    by_cases hr : removable n = true
    · simp only [removeEmptyL, if_pos hr, removeEmptyL_idem r]
    · simp only [removeEmptyL, if_neg hr]
      rw [removable_remove n, if_neg hr, removeEmptyN_idem n, removeEmptyL_idem r]

end

/-- Two appends with needles differing at one position are different. -/
theorem append_ne_of_getElem {p q s t : Chars} {i : Nat} {c d : Char}
    (hp : p[i]? = some c) (hq : q[i]? = some d) (hcd : c ≠ d) : p ++ s ≠ q ++ t := by
  intro he
  have hip : i < p.length := (List.getElem?_eq_some.mp hp).1
  have hiq : i < q.length := (List.getElem?_eq_some.mp hq).1
  have h1 : (p ++ s)[i]? = some c := by rw [List.getElem?_append_left hip]; exact hp
  have h2 : (q ++ t)[i]? = some d := by rw [List.getElem?_append_left hiq]; exact hq
  rw [he, h2] at h1
  exact hcd (Option.some.injEq _ _ ▸ h1).symm

/-- Style shape of an inline-code element after apply_inline_styles. -/
theorem inline_code_styled (doc : List HNode)
    (pe : Option String × String × Option String)
    (hpe : pe ∈ elemsL none (apply_inline_styles doc))
    (htag : pe.2.1 = "code") (hpar : pe.1 ≠ some "pre") :
    ∃ s0, pe.2.2 = some (inline_code_style ++ s0) := by
  obtain ⟨pe', hpe', hp, ht, hsty⟩ := elems_leadL none (applyStylesL none doc) pe hpe
  have hsty2 : pe.2.2 = pe'.2.2 := by
    rcases hsty with h | ⟨hp2, -⟩
    · exact h
    · rw [htag] at hp2; exact absurd hp2 (by decide)
  rw [elems_applyL] at hpe'
  obtain ⟨e, he, hmap⟩ := List.mem_map.mp hpe'
  have h1 : pe'.2.2 = styledAttr e.1 e.2.1 e.2.2 := by rw [← hmap]; rfl
  have h2 : e.2.1 = "code" := by rw [← htag, ht, ← hmap]; rfl
  have h3 : e.1 = pe.1 := by rw [hp, ← hmap]; rfl
  refine ⟨e.2.2.getD "", ?_⟩
  rw [hsty2, h1, h2]
  rw [styledAttr]
  simp [get_style_mapping, h3, hpar]

/-- Style shape of a pre element after apply_inline_styles. -/
theorem pre_styled (doc : List HNode)
    (pe : Option String × String × Option String)
    (hpe : pe ∈ elemsL none (apply_inline_styles doc))
    (htag : pe.2.1 = "pre") :
    ∃ s0, pe.2.2 = some ("background: #282C34; border-radius: 12px; padding: 40px 20px 20px; position: relative; overflow-x: auto; margin: 24px 0; color: #ABB2BF; font-size: 0.85rem; line-height: 1.6;" ++ " " ++ s0) := by
  obtain ⟨pe', hpe', hp, ht, hsty⟩ := elems_leadL none (applyStylesL none doc) pe hpe
  have hsty2 : pe.2.2 = pe'.2.2 := by
    rcases hsty with h | ⟨hp2, -⟩
    · exact h
    · rw [htag] at hp2; exact absurd hp2 (by decide)
  rw [elems_applyL] at hpe'
  obtain ⟨e, he, hmap⟩ := List.mem_map.mp hpe'
  have h1 : pe'.2.2 = styledAttr e.1 e.2.1 e.2.2 := by rw [← hmap]; rfl
  have h2 : e.2.1 = "pre" := by rw [← htag, ht, ← hmap]; rfl
  refine ⟨e.2.2.getD "", ?_⟩
  rw [hsty2, h1, h2]
  rw [styledAttr]
  simp [get_style_mapping]

theorem joinNl_cons (l : Chars) (ls : List Chars) (h : ls ≠ []) :
    joinNl (l :: ls) = l ++ '\n' :: joinNl ls := by
  match ls with
  | [] => exact absurd rfl h
  | x :: r => rfl

theorem splitNl_ne_nil : ∀ l : Chars, splitNl l ≠ [] := by
  intro l
  match l with
  | [] => simp [splitNl]
  | c :: r =>
    rw [splitNl]
    by_cases hc : c = '\n'
    · rw [if_pos hc]; simp
    · rw [if_neg hc]
      rcases hs : splitNl r with _ | ⟨L, Ls⟩
      · simp
      · simp

theorem joinNl_splitNl : ∀ l : Chars, joinNl (splitNl l) = l := by
  intro l
  induction l with
  | nil => rfl
  | cons c r ih =>
    rw [splitNl]
    by_cases hc : c = '\n'
    · rw [if_pos hc, joinNl_cons [] (splitNl r) (splitNl_ne_nil r), ih, hc]
      rfl
    · rw [if_neg hc]
      rcases hs : splitNl r with _ | ⟨L, Ls⟩
      · exact absurd hs (splitNl_ne_nil r)
      · rw [hs] at ih
        match Ls, ih with
        | [], ih =>
          have : L = r := by simpa [joinNl] using ih
          simp [joinNl, this]
        | x :: Ls', ih =>
          rw [joinNl_cons L (x :: Ls') (by simp)] at ih
          rw [joinNl_cons (c :: L) (x :: Ls') (by simp)]
          rw [← ih]
          rfl

theorem splitNl_no_nl : ∀ (l : Chars), ∀ L ∈ splitNl l, '\n' ∉ L := by
  intro l
  induction l with
  | nil => intro L hL; simp [splitNl] at hL; simp [hL]
  | cons c r ih =>
    intro L hL
    rw [splitNl] at hL
    by_cases hc : c = '\n'
    · rw [if_pos hc] at hL
      rcases List.mem_cons.mp hL with h1 | h1
      · simp [h1]
      · exact ih L h1
    · rw [if_neg hc] at hL
      rcases hs : splitNl r with _ | ⟨L0, Ls⟩
      · exact absurd hs (splitNl_ne_nil r)
      · rw [hs] at hL
        rcases List.mem_cons.mp hL with h1 | h1
        · subst h1
          intro hmem
          rcases List.mem_cons.mp hmem with h2 | h2
          · exact hc h2.symm
          · exact ih L0 (by rw [hs]; exact List.mem_cons_self _ _) h2
        · exact ih L (by rw [hs]; exact List.mem_cons.mpr (Or.inr h1))

theorem takeWhile_all {p : Char → Bool} :
    ∀ {l : Chars}, ∀ c ∈ l.takeWhile p, p c = true := by
  intro l
  induction l with
  | nil => intro c hc; simp [List.takeWhile] at hc
  | cons a r ih =>
    intro c hc
    rw [List.takeWhile] at hc
    by_cases ha : p a
    · rw [ha] at hc
      simp only [List.mem_cons] at hc
      rcases hc with h1 | h1
      · subst h1; exact ha
      · exact ih c h1
    · rw [Bool.not_eq_true] at ha
      rw [ha] at hc
      simp at hc

theorem dropWhile_head {p : Char → Bool} (l : Chars) {x : Char} {y : Chars}
    (h : l.dropWhile p = x :: y) : p x = false := by
  induction l with
  | nil => simp [List.dropWhile] at h
  | cons a r ih =>
    rw [List.dropWhile_cons] at h
    by_cases ha : p a
    · rw [if_pos ha] at h
      exact ih h
    · rw [if_neg ha] at h
      simp only [List.cons.injEq] at h
      rw [← h.1]
      exact Bool.not_eq_true _ ▸ (eq_false_of_ne_true (fun hh => ha hh))

theorem takeWhile_app {p : Char → Bool} (w : Chars) (hall : ∀ c ∈ w, p c = true)
    {x : Char} (hx : p x = false) (y : Chars) :
    (w ++ x :: y).takeWhile p = w := by
  induction w with
  | nil =>
    simp [List.takeWhile_cons, hx]
  | cons a w2 ih =>
    have ha : p a = true := hall a (List.mem_cons_self _ _)
    rw [List.cons_append, List.takeWhile_cons, if_pos ha,
      ih (fun c hc => hall c (List.mem_cons.mpr (Or.inr hc)))]

theorem dropWhile_app {p : Char → Bool} (w : Chars) (hall : ∀ c ∈ w, p c = true)
    {x : Char} (hx : p x = false) (y : Chars) :
    (w ++ x :: y).dropWhile p = x :: y := by
  induction w with
  | nil =>
    simp [List.dropWhile_cons, hx]
  | cons a w2 ih =>
    have ha : p a = true := hall a (List.mem_cons_self _ _)
    rw [List.cons_append, List.dropWhile_cons, if_pos ha,
      ih (fun c hc => hall c (List.mem_cons.mpr (Or.inr hc)))]

theorem takeWhile_ne_nl_all {a : Chars} (h : '\n' ∉ a) :
    a.takeWhile (fun ch => ch != '\n') = a := by
  induction a with
  | nil => rfl
  | cons c r ih =>
    have hc : (c != '\n') = true := by
      simpa using (fun hh => h (by simp [hh]) : c ≠ '\n')
    rw [List.takeWhile_cons, if_pos hc,
      ih (fun hh => h (List.mem_cons.mpr (Or.inr hh)))]

theorem takeWhile_ne_nl_app {a : Chars} (h : '\n' ∉ a) (z : Chars) :
    (a ++ '\n' :: z).takeWhile (fun ch => ch != '\n') = a := by
  induction a with
  | nil => simp [List.takeWhile]
  | cons c r ih =>
    have hc : c ≠ '\n' := fun hh => h (by simp [hh])
    have hc2 : (c != '\n') = true := by simpa using hc
    rw [List.cons_append, List.takeWhile_cons, if_pos hc2,
      ih (fun hh => h (List.mem_cons.mpr (Or.inr hh)))]

theorem matchTitleAt_cons (c : Char) (r : Chars) :
    matchTitleAt (c :: r) =
      if c = '#' then
        if (r.takeWhile wsCh).isEmpty then none
        else if (r.dropWhile wsCh).isEmpty then
          match lastIdxNonNl ((r.takeWhile wsCh).drop 1) with
          | none => none
          | some j =>
            some ((((r.takeWhile wsCh).drop 1).drop j).takeWhile (fun ch => ch != '\n'))
        else some ((r.dropWhile wsCh).takeWhile (fun ch => ch != '\n'))
      else none := rfl

theorem matchTitle_proper {L : Chars} (T : Chars) (h1 : '\n' ∉ L)
    (h2 : isProper L = true) (hT : T = [] ∨ ∃ z, T = '\n' :: z) :
    matchTitleAt (L ++ T) = some (captureOf L) := by
  rcases L with _ | ⟨c, r⟩
  · simp [isProper] at h2
  · have h2' : (decide (c = '#') && !(r.takeWhile wsCh).isEmpty
        && !(r.dropWhile wsCh).isEmpty) = true := h2
    simp only [Bool.and_eq_true, Bool.not_eq_true', decide_eq_true_eq] at h2'
    obtain ⟨⟨hc, hW⟩, hrest⟩ := h2'
    have hdne : r.dropWhile wsCh ≠ [] := by
      intro hh; rw [hh] at hrest; simp at hrest
    obtain ⟨x, y, hxy⟩ := List.exists_cons_of_ne_nil hdne
    have hx : wsCh x = false := dropWhile_head r hxy
    have hxysub : ∀ ch ∈ x :: y, ch ∈ c :: r := by
      intro ch hch
      rw [← hxy] at hch
      exact List.mem_cons.mpr (Or.inr (List.dropWhile_subset wsCh hch))
    have hsplit : r.takeWhile wsCh ++ x :: y = r := by
      rw [← hxy]; exact List.takeWhile_append_dropWhile wsCh r
    have hresplit : r ++ T = r.takeWhile wsCh ++ x :: (y ++ T) := by
      conv_lhs => rw [← hsplit]
      rw [List.append_assoc, List.cons_append]
    have hTW : (r ++ T).takeWhile wsCh = r.takeWhile wsCh := by
      rw [hresplit]
      exact takeWhile_app _ (fun ch hch => takeWhile_all ch hch) hx _
    have hTD : (r ++ T).dropWhile wsCh = x :: (y ++ T) := by
      rw [hresplit]
      exact dropWhile_app _ (fun ch hch => takeWhile_all ch hch) hx _
    rw [List.cons_append, matchTitleAt_cons, if_pos hc, hTW, hTD]
    have hWne : ¬ ((r.takeWhile wsCh).isEmpty = true) := by
      rw [hW]; simp
    rw [if_neg hWne]
    rw [if_neg (by simp : ¬ ((x :: (y ++ T)).isEmpty = true))]
    have hnl : '\n' ∉ x :: y := by
      intro hh; exact h1 (hxysub '\n' hh)
    rcases hT with rfl | ⟨z, rfl⟩
    · rw [List.append_nil]
      rw [takeWhile_ne_nl_all hnl]
      show some (x :: y) = some (captureOf ('#' :: r))
      rw [show captureOf ('#' :: r) = r.dropWhile wsCh from rfl, hxy]
    · rw [show x :: (y ++ '\n' :: z) = (x :: y) ++ '\n' :: z from rfl]
      rw [takeWhile_ne_nl_app hnl]
      show some (x :: y) = some (captureOf ('#' :: r))
      rw [show captureOf ('#' :: r) = r.dropWhile wsCh from rfl, hxy]

theorem matchTitle_fail {L : Chars} (T : Chars) (h1 : '\n' ∉ L)
    (hp : isProper L = false) (ht : isTrouble L = false)
    (hT : T = [] ∨ ∃ z, T = '\n' :: z) :
    matchTitleAt (L ++ T) = none := by
  rcases L with _ | ⟨c, r⟩
  · rcases hT with rfl | ⟨z, rfl⟩
    · rfl
    · rw [List.nil_append, matchTitleAt_cons, if_neg (by decide : ¬ (('\n' : Char) = '#'))]
  · by_cases hc : c = '#'
    · have hdne : r.dropWhile wsCh ≠ [] := by
        intro hh
        have ht' : (decide (c = '#') && (r.dropWhile wsCh).isEmpty) = true := by
          rw [hh, decide_eq_true hc]
          rfl
        rw [show isTrouble (c :: r) = (decide (c = '#') && (r.dropWhile wsCh).isEmpty)
          from rfl] at ht
        rw [ht'] at ht
        cases ht
      obtain ⟨x, y, hxy⟩ := List.exists_cons_of_ne_nil hdne
      have hx : wsCh x = false := dropWhile_head r hxy
      have hWnil : r.takeWhile wsCh = [] := by
        by_contra hW
        have hWE : (r.takeWhile wsCh).isEmpty = false := by
          cases hE : (r.takeWhile wsCh).isEmpty
          · rfl
          · exact absurd (by simpa [List.isEmpty_iff] using hE) hW
        have hp' : (decide (c = '#') && !(r.takeWhile wsCh).isEmpty
            && !(r.dropWhile wsCh).isEmpty) = true := by
          rw [decide_eq_true hc, hxy, hWE]
          rfl
        rw [show isProper (c :: r) = (decide (c = '#') && !(r.takeWhile wsCh).isEmpty
          && !(r.dropWhile wsCh).isEmpty) from rfl] at hp
        rw [hp'] at hp
        cases hp
      have hr : r = x :: y := by
        have := List.takeWhile_append_dropWhile wsCh r
        rw [hWnil, hxy] at this
        exact this.symm
      have hTW : (r ++ T).takeWhile wsCh = [] := by
        rw [hr, List.cons_append, List.takeWhile_cons, if_neg (by simp [hx])]
      rw [List.cons_append, matchTitleAt_cons, if_pos hc, hTW]
      rfl
    · rw [List.cons_append, matchTitleAt_cons, if_neg hc]

theorem searchTitleGo_cons_some {c : Char} {r : Chars} {t : Chars}
    (h : matchTitleAt (c :: r) = some t) :
    searchTitleGo true (c :: r) = some t := by
  show (match matchTitleAt (c :: r) with
    | some t => some t
    | none => searchTitleGo ((c = '\n' : Bool)) r) = some t
  rw [h]

theorem searchTitleGo_cons_none {c : Char} {r : Chars}
    (h : matchTitleAt (c :: r) = none) :
    searchTitleGo true (c :: r) = searchTitleGo ((c = '\n' : Bool)) r := by
  show (match matchTitleAt (c :: r) with
    | some t => some t
    | none => searchTitleGo ((c = '\n' : Bool)) r) = _
  rw [h]

theorem searchTitleGo_false_cons (c : Char) (r : Chars) :
    searchTitleGo false (c :: r) = searchTitleGo ((c = '\n' : Bool)) r := rfl

theorem skipFalse {a : Chars} (h : '\n' ∉ a) (T : Chars) :
    searchTitleGo false (a ++ '\n' :: T) = searchTitleGo true T := by
  induction a with
  | nil =>
    rw [List.nil_append, searchTitleGo_false_cons]
    rw [show ((('\n' : Char) = '\n' : Bool)) = true from by simp]
  | cons c r ih =>
    have hc : ¬ (c = '\n') := fun hh => h (by simp [hh])
    rw [List.cons_append, searchTitleGo_false_cons, decide_eq_false hc]
    exact ih (fun hh => h (List.mem_cons.mpr (Or.inr hh)))

theorem skipFalseEnd {a : Chars} (h : '\n' ∉ a) :
    searchTitleGo false a = none := by
  induction a with
  | nil => rfl
  | cons c r ih =>
    have hc : ¬ (c = '\n') := fun hh => h (by simp [hh])
    rw [searchTitleGo_false_cons, decide_eq_false hc]
    exact ih (fun hh => h (List.mem_cons.mpr (Or.inr hh)))

theorem stepLine {L : Chars} (T : Chars) (h1 : '\n' ∉ L)
    (hm : matchTitleAt (L ++ '\n' :: T) = none) :
    searchTitleGo true (L ++ '\n' :: T) = searchTitleGo true T := by
  rcases L with _ | ⟨c, r⟩
  · rw [List.nil_append] at hm ⊢
    rw [searchTitleGo_cons_none hm]
    rw [show ((('\n' : Char) = '\n' : Bool)) = true from by simp]
  · rw [List.cons_append] at hm ⊢
    rw [searchTitleGo_cons_none hm]
    have hc : ¬ (c = '\n') := fun hh => h1 (by simp [hh])
    rw [decide_eq_false hc]
    exact skipFalse (fun hh => h1 (List.mem_cons.mpr (Or.inr hh))) T

theorem stepLineEnd {L : Chars} (h1 : '\n' ∉ L)
    (hm : matchTitleAt L = none) :
    searchTitleGo true L = none := by
  rcases L with _ | ⟨c, r⟩
  · rfl
  · rw [searchTitleGo_cons_none hm]
    have hc : ¬ (c = '\n') := fun hh => h1 (by simp [hh])
    rw [decide_eq_false hc]
    exact skipFalseEnd (fun hh => h1 (List.mem_cons.mpr (Or.inr hh)))

theorem searchTitle_lines : ∀ ls : List Chars,
    (∀ L ∈ ls, '\n' ∉ L) → (∀ L ∈ ls, isTrouble L = false) →
    searchTitleGo true (joinNl ls) = firstProperCapture ls := by
  intro ls
  induction ls with
  | nil => intro _ _; rfl
  | cons l ls ih =>
    intro hnl htr
    have hln : '\n' ∉ l := hnl l (List.mem_cons_self _ _)
    have hnl' : ∀ L ∈ ls, '\n' ∉ L :=
      fun L hL => hnl L (List.mem_cons.mpr (Or.inr hL))
    have htr' : ∀ L ∈ ls, isTrouble L = false :=
      fun L hL => htr L (List.mem_cons.mpr (Or.inr hL))
    by_cases hp : isProper l = true
    · have hne : l ≠ [] := by
        intro hh; rw [hh] at hp; simp [isProper] at hp
      obtain ⟨c, r, hcr⟩ := List.exists_cons_of_ne_nil hne
      subst hcr
      rcases ls with _ | ⟨l2, ls2⟩
      · have hm : matchTitleAt (c :: r) = some (captureOf (c :: r)) := by
          have := matchTitle_proper [] hln hp (Or.inl rfl)
          rwa [List.append_nil] at this
        rw [show joinNl [c :: r] = c :: r from rfl]
        rw [searchTitleGo_cons_some hm]
        rw [show firstProperCapture ((c :: r) :: []) =
          if isProper (c :: r) then some (captureOf (c :: r)) else firstProperCapture []
          from rfl]
        rw [if_pos hp]
      · rw [joinNl_cons (c :: r) (l2 :: ls2) (by simp)]
        have hm : matchTitleAt ((c :: r) ++ '\n' :: joinNl (l2 :: ls2)) =
            some (captureOf (c :: r)) :=
          matchTitle_proper _ hln hp (Or.inr ⟨_, rfl⟩)
        rw [List.cons_append] at hm
        rw [List.cons_append]
        rw [searchTitleGo_cons_some hm]
        rw [show firstProperCapture ((c :: r) :: l2 :: ls2) =
          if isProper (c :: r) then some (captureOf (c :: r)) else firstProperCapture (l2 :: ls2)
          from rfl]
        rw [if_pos hp]
    · have hp' : isProper l = false := by
        cases hpp : isProper l
        · rfl
        · exact absurd hpp hp
      have htl : isTrouble l = false := htr l (List.mem_cons_self _ _)
      have hfp : firstProperCapture (l :: ls) = firstProperCapture ls := by
        rw [show firstProperCapture (l :: ls) =
          if isProper l then some (captureOf l) else firstProperCapture ls from rfl]
        rw [if_neg hp]
      rw [hfp]
      rcases ls with _ | ⟨l2, ls2⟩
      · have hm : matchTitleAt l = none := by
          have := matchTitle_fail [] hln hp' htl (Or.inl rfl)
          rwa [List.append_nil] at this
        rw [show joinNl [l] = l from rfl]
        rw [stepLineEnd hln hm]
        rfl
      · rw [joinNl_cons l (l2 :: ls2) (by simp)]
        have hm : matchTitleAt (l ++ '\n' :: joinNl (l2 :: ls2)) = none :=
          matchTitle_fail _ hln hp' htl (Or.inr ⟨_, rfl⟩)
        rw [stepLine _ hln hm]
        exact ih hnl' htr'

theorem searchTitle_content (content : String)
    (htr : ∀ L ∈ splitNl content.data, isTrouble L = false) :
    searchTitleGo true content.data = firstProperCapture (splitNl content.data) := by
  conv_lhs => rw [← joinNl_splitNl content.data]
  exact searchTitle_lines _ (splitNl_no_nl content.data) htr

theorem firstProper_none : ∀ ls : List Chars,
    (∀ L ∈ ls, isProper L = false) → firstProperCapture ls = none := by
  intro ls
  induction ls with
  | nil => intro _; rfl
  | cons l ls ih =>
    intro hall
    rw [show firstProperCapture (l :: ls) =
      if isProper l then some (captureOf l) else firstProperCapture ls from rfl]
    rw [hall l (List.mem_cons_self _ _)]
    rw [if_neg (by simp)]
    exact ih (fun L hL => hall L (List.mem_cons.mpr (Or.inr hL)))

theorem firstProper_decomp : ∀ (pre : List Chars) (L : Chars) (post : List Chars),
    (∀ x ∈ pre, isProper x = false) → isProper L = true →
    firstProperCapture (pre ++ L :: post) = some (captureOf L) := by
  intro pre
  induction pre with
  | nil =>
    intro L post _ hL
    rw [List.nil_append]
    rw [show firstProperCapture (L :: post) =
      if isProper L then some (captureOf L) else firstProperCapture post from rfl]
    rw [if_pos hL]
  | cons x pre ih =>
    intro L post hpre hL
    rw [List.cons_append]
    rw [show firstProperCapture (x :: (pre ++ L :: post)) =
      if isProper x then some (captureOf x) else firstProperCapture (pre ++ L :: post)
      from rfl]
    rw [hpre x (List.mem_cons_self _ _), if_neg (by simp)]
    exact ih L post (fun y hy => hpre y (List.mem_cons.mpr (Or.inr hy))) hL

theorem filter_eq_single {p : Chars → Bool} :
    ∀ {ls : List Chars} {x : Chars}, ls.filter p = [x] →
      ∃ pre post, ls = pre ++ x :: post ∧ (∀ y ∈ pre, p y = false) ∧
        (∀ y ∈ post, p y = false) := by
  intro ls
  induction ls with
  | nil => intro x h; simp at h
  | cons a r ih =>
    intro x h
    rw [List.filter_cons] at h
    by_cases ha : p a = true
    · rw [if_pos ha] at h
      simp only [List.cons.injEq] at h
      refine ⟨[], r, by rw [List.nil_append, h.1], by simp, ?_⟩
      intro y hy
      have := List.filter_eq_nil_iff.mp h.2 y hy
      cases hpy : p y
      · rfl
      · exact absurd hpy this
    · have ha' : ¬ (p a : Prop) := fun hh => ha hh
      rw [if_neg ha'] at h
      obtain ⟨pre, post, hdec, hpre, hpost⟩ := ih h
      refine ⟨a :: pre, post, by rw [hdec, List.cons_append], ?_, hpost⟩
      intro y hy
      rcases List.mem_cons.mp hy with h1 | h1
      · subst h1
        cases hpy : p y
        · rfl
        · exact absurd hpy ha'
      · exact hpre y h1

/-- A helper used by the claim lemma about the already-styled case: the
mapped style is prepended, separated by a blank, for a mapped tag outside
the skip list that is not code. -/
theorem styledAttr_mapped {tag m : String} (hm : get_style_mapping tag = some m)
    (h1 : tag ≠ "body") (h2 : tag ≠ "article_container") (h3 : tag ≠ "article_content")
    (h4 : tag ≠ "code") (parent : Option String) (cur : Option String) :
    styledAttr parent tag cur = some (m ++ " " ++ cur.getD "") := by
  unfold styledAttr
  rw [hm]
  show (if tag = "body" ∨ tag = "article_container" ∨ tag = "article_content" then cur
    else if tag = "code" then
      if parent = some "pre" then cur
      else some (inline_code_style ++ cur.getD "")
    else some (m ++ " " ++ cur.getD "")) = some (m ++ " " ++ cur.getD "")
  rw [if_neg (by rintro (h | h | h); exacts [h1 h, h2 h, h3 h]), if_neg h4]

/-! ## The claims -/

/-- C1 counterexample: calibrate_code is not idempotent.  On a document with
one nonempty paragraph the first run prepends the paragraph style and the
lead-paragraph style; the second run prepends both again, so the element
styles of the two outputs differ. -/
theorem C1_counterexample :
    elemsL none (calibrate_code (calibrate_code [HNode.elem "p" none [HNode.htext "hi"]])) ≠
      elemsL none (calibrate_code [HNode.elem "p" none [HNode.htext "hi"]]) := by
  decide

/-- C1 (corrected): the cleanup half of the Calibrator is idempotent -
re-running the empty-paragraph removal on calibrate_code's output changes
nothing.  calibrate_code as a whole is not idempotent, because its
apply_inline_styles pass prepends the tag and lead-paragraph styles again
on every run. -/
theorem C1_cleanup_idem (doc : List HNode) :
    removeEmptyL (calibrate_code doc) = calibrate_code doc :=
  removeEmptyL_idem (apply_inline_styles doc)

/-- C2 counterexample: the original bracketed marker syntax can appear in
the output of process_images.  With generation failing, the placeholder
whose description is the word Image is replaced by a placeholder-image
reference that itself begins with the marker and is matched again by the
placeholder pattern. -/
theorem C2_counterexample :
    leadsWith "![Image](".data
        (process_images (fun _ => none) "![Image](Image)").data = true ∧
    finditerImg (process_images (fun _ => none) "![Image](Image)").data ≠ [] := by
  decide

/-- C2 (corrected): the positional part of the claim holds - the input
decomposes into chunks (literal characters and placeholder matches) whose
original texts concatenate to the input, the output of process_images is the
chunkwise rendering in the same order, and every placeholder chunk renders
to an embedded data reference on generation success and to the network
placeholder-image reference on failure.  The never-the-marker part is
refuted by the counterexample. -/
theorem C2_chunkwise (gen : ImgGen) (content : String) :
    catMap origImg (chunksImg content.data) = content.data ∧
    process_images gen content = ⟨catMap (renderImg gen) (chunksImg content.data)⟩ ∧
    ∀ orig desc, ImgChunk.ph orig desc ∈ chunksImg content.data →
      (∃ b64, gen desc = some b64 ∧
        renderImg gen (ImgChunk.ph orig desc) =
          "![".data ++ desc ++ "](".data ++ dataUri "image/png".data b64 ++ ")".data) ∨
      (gen desc = none ∧ renderImg gen (ImgChunk.ph orig desc) = imgPlaceholder desc) := by
  refine ⟨chunksImgF_orig _ _ (le_refl _), ?_, ?_⟩
  · rw [process_images_eq_go]
    exact congrArg String.mk (goImg_eq_chunks gen _ _ (le_refl _))
  · intro orig desc hmem
    exact imgRepl_cases gen desc

/-- C3 counterexample: the generation request is not parameterized by the
resolution setting - the request configuration is the same for different
resolution settings (the selecting line is commented out in the source) -
and the configured values are 1k, 2k and 4k, not low, medium and high. -/
theorem C3_counterexample :
    generation_config false "1k" = generation_config false "4k" ∧
    ("1k" : String) ≠ "4k" ∧
    res_map "low" = none ∧ res_map "medium" = none ∧ res_map "high" = none :=
  ⟨rfl, by decide, rfl, rfl, rfl⟩

/-- C3 (corrected): the request configuration built by
generate_image_from_prompt depends only on the search toggle and never on
the resolution setting; the resolution mapping res_map takes the enumerated
configuration values 1k, 2k and 4k to the SDK resolutions low, medium and
high but is never applied to the request. -/
theorem C3_config_ignores_resolution :
    (∀ (b : Bool) (r1 r2 : String), generation_config b r1 = generation_config b r2) ∧
    res_map "1k" = some MediaResolution.low ∧
    res_map "2k" = some MediaResolution.medium ∧
    res_map "4k" = some MediaResolution.high ∧
    res_map IMAGE_RESOLUTION_default = some MediaResolution.medium :=
  ⟨fun _ _ _ => rfl, rfl, rfl, rfl, rfl⟩

/-- C4: with the API credential absent every image-generation call returns
nothing, and process_images substitutes for every placeholder, at its
position in the chunk decomposition, exactly the network placeholder-image
reference carrying the description as query text. -/
theorem C4_absent_credential (content : String) :
    catMap origImg (chunksImg content.data) = content.data ∧
    process_images (fun _ => none) content =
      ⟨catMap (renderImg (fun _ => none)) (chunksImg content.data)⟩ ∧
    ∀ orig desc, ImgChunk.ph orig desc ∈ chunksImg content.data →
      renderImg (fun _ => none) (ImgChunk.ph orig desc) = imgPlaceholder desc := by
  refine ⟨chunksImgF_orig _ _ (le_refl _), ?_, ?_⟩
  · rw [process_images_eq_go]
    exact congrArg String.mk (goImg_eq_chunks (fun _ => none) _ _ (le_refl _))
  · intro orig desc hmem
    rfl

/-- C4 witness: a concrete placeholder resolved by the theorem at a
concrete input. -/
theorem C4_witness :
    ImgChunk.ph "![Image](cat)".data "cat".data ∈ chunksImg "![Image](cat)".data ∧
    renderImg (fun _ => none) (ImgChunk.ph "![Image](cat)".data "cat".data) =
      imgPlaceholder "cat".data :=
  ⟨by decide, (C4_absent_credential "![Image](cat)").2.2 _ _ (by decide)⟩

/-- C5 counterexample: a code element inside a pre block has its tag in the
style mapping and carries an author style, yet apply_inline_styles leaves
its style attribute unchanged - the mapped style is not prepended in any of
the separator conventions the pass uses. -/
theorem C5_counterexample :
    (get_style_mapping "code").isSome = true ∧
    ((some "pre", "code", some "color:red") : Option String × String × Option String) ∈
      elemsL none (apply_inline_styles
        [HNode.elem "pre" none [HNode.elem "code" (some "color:red") [HNode.htext "x"]]]) ∧
    ("color:red" : String) ≠ (get_style_mapping "code").getD "" ++ " " ++ "color:red" ∧
    ("color:red" : String) ≠ (get_style_mapping "code").getD "" ++ "color:red" ∧
    ("color:red" : String) ≠ inline_code_style ++ "color:red" := by
  decide

/-- C5 (corrected): outside the exceptions, the mapped style is prepended
with the author style preserved right after it.  For a mapped tag that is
not one of the skip-listed page containers, not code and not a paragraph,
every element of the apply_inline_styles output gets the mapped style, a
blank, then its original style verbatim; inline code instead gets the
distinct inline-code style prepended directly to its original style; code
inside a pre block is left untouched (the divergence shown by the
counterexample). -/
theorem C5_prepend_shape :
    (∀ (doc : List HNode) (pe : Option String × String × Option String),
      pe ∈ elemsL none (apply_inline_styles doc) → ∀ m : String,
      get_style_mapping pe.2.1 = some m → pe.2.1 ≠ "code" → pe.2.1 ≠ "p" →
      pe.2.1 ≠ "body" → pe.2.1 ≠ "article_container" → pe.2.1 ≠ "article_content" →
      ∃ e ∈ elemsL none doc, e.1 = pe.1 ∧ e.2.1 = pe.2.1 ∧
        pe.2.2 = some (m ++ " " ++ e.2.2.getD "")) ∧
    (∀ (parent : Option String) (cur : String), parent ≠ some "pre" →
      styledAttr parent "code" (some cur) = some (inline_code_style ++ cur)) ∧
    (∀ cur : Option String, styledAttr (some "pre") "code" cur = cur) := by
  refine ⟨?_, ?_, ?_⟩
  · intro doc pe hpe m hm hcode hptag hb hac hacc
    obtain ⟨pe', hpe', hp, ht, hsty⟩ := elems_leadL none (applyStylesL none doc) pe hpe
    have hsty2 : pe.2.2 = pe'.2.2 := by
      rcases hsty with h | ⟨hp2, -⟩
      · exact h
      · exact absurd hp2 hptag
    rw [elems_applyL] at hpe'
    obtain ⟨e, he, hmap⟩ := List.mem_map.mp hpe'
    have heq : e.2.1 = pe.2.1 := by rw [ht, ← hmap]; rfl
    refine ⟨e, he, ?_, heq.symm ▸ rfl, ?_⟩
    · rw [hp, ← hmap]; rfl
    · have h1 : pe'.2.2 = styledAttr e.1 e.2.1 e.2.2 := by rw [← hmap]; rfl
      rw [hsty2, h1, heq, styledAttr_mapped hm hb hac hacc hcode]
  · intro parent cur hpar
    unfold styledAttr
    show (if ("code" : String) = "body" ∨ ("code" : String) = "article_container" ∨
        ("code" : String) = "article_content" then some cur
      else if ("code" : String) = "code" then
        if parent = some "pre" then some cur
        else some (inline_code_style ++ (some cur).getD "")
      else some ("font-family: \x27Fira Code\x27, Consolas, monospace;" ++ " " ++
        (some cur).getD "")) = some (inline_code_style ++ cur)
    rw [if_neg (by decide), if_pos rfl, if_neg hpar]
    rfl
  · intro cur
    rfl

/-- C6: an inline-code element (code whose parent is not pre) always carries
the inline-code style prefix and a pre element always carries the block-code
style prefix; the two prefixes differ, so the style of every inline-code
element differs from the style of every pre element, and no single element
is both. -/
theorem C6_styles_distinct (doc : List HNode)
    (pe1 pe2 : Option String × String × Option String)
    (h1 : pe1 ∈ elemsL none (apply_inline_styles doc))
    (h2 : pe2 ∈ elemsL none (apply_inline_styles doc))
    (ht1 : pe1.2.1 = "code") (hp1 : pe1.1 ≠ some "pre")
    (ht2 : pe2.2.1 = "pre") :
    pe1.2.2 ≠ pe2.2.2 ∧ pe1 ≠ pe2 := by
  obtain ⟨s0, hs0⟩ := inline_code_styled doc pe1 h1 ht1 hp1
  obtain ⟨s1, hs1⟩ := pre_styled doc pe2 h2 ht2
  constructor
  · rw [hs0, hs1]
    intro he
    have he2 := congrArg String.data (Option.some.inj he)
    rw [String.data_append, String.data_append, String.data_append,
      List.append_assoc] at he2
    have hp13 : inline_code_style.data[13]? = some ('F' : Char) := by decide
    have hq13 : ("background: #282C34; border-radius: 12px; padding: 40px 20px 20px; position: relative; overflow-x: auto; margin: 24px 0; color: #ABB2BF; font-size: 0.85rem; line-height: 1.6;" : String).data[13]? = some ('2' : Char) := by decide
    exact append_ne_of_getElem hp13 hq13 (by decide) he2
  · intro he
    rw [he] at ht1
    exact absurd (ht2.symm.trans ht1) (by decide)

/-- C6 witness: a document with one inline-code element and one pre element,
resolved by the theorem at concrete inputs. -/
theorem C6_witness :
    styledAttr (some "p") "code" none ≠ styledAttr none "pre" none ∧
    ((some "p", "code", styledAttr (some "p") "code" none) :
        Option String × String × Option String) ≠
      (none, "pre", styledAttr none "pre" none) :=
  C6_styles_distinct
    [HNode.elem "p" none [HNode.elem "code" none [HNode.htext "x"]],
      HNode.elem "pre" none []]
    (some "p", "code", styledAttr (some "p") "code" none)
    (none, "pre", styledAttr none "pre" none)
    (by decide) (by decide) rfl (by decide) rfl

/-- C7: local image embedding over a fixed filesystem is idempotent:
embedding already-embedded content makes no further change, because data
and network references are excluded by the negative lookahead of the
local-file pattern.  The hypothesis states the wellformedness of the
filesystem's answers (MIME types and base64 payloads contain no exclamation
mark), which holds of every real MIME type and of the base64 alphabet. -/
theorem C7_embed_idem (fs : EmbFS) (hfs : GoodFS fs) (content : String) :
    embed_local_images fs (embed_local_images fs content) =
      embed_local_images fs content := by
  rw [embed_eq_go fs content, embed_eq_go fs ⟨goEmb fs content.data⟩]
  exact congrArg String.mk
    (goEmb_idem fs hfs content.data.length content.data (le_refl _))

/-- C7 witness: the theorem applied to a one-file filesystem and a concrete
reference to that file. -/
theorem C7_witness :
    embed_local_images sampleFS (embed_local_images sampleFS "see ![a](img.png) here") =
      embed_local_images sampleFS "see ![a](img.png) here" :=
  C7_embed_idem sampleFS
    (by
      intro p m b h
      simp only [sampleFS] at h
      by_cases hp : p = "img.png".data
      · rw [if_pos hp] at h
        obtain ⟨h3, h4⟩ : "image/png".data = m ∧ "QUJD".data = b := by
          injection h with h2
          exact ⟨congrArg Prod.fst h2, congrArg Prod.snd h2⟩
        subst h3
        subst h4
        decide
      · rw [if_neg hp] at h
        exact absurd h (by simp))
    "see ![a](img.png) here"

/-- C8: the input of embed_local_images decomposes into chunks whose
originals concatenate to the input and the output is the chunkwise
rendering; a matched local reference whose path the filesystem lacks
renders to its own original text (the reference is left unchanged) and its
path is recorded in the warnings; and each reference's rendering depends
only on the filesystem's answer at its own path, so one missing file leaves
the processing of every other reference unaffected. -/
theorem C8_missing_file (fs : EmbFS) (content : String) :
    catMap origEmb (chunksEmb content.data) = content.data ∧
    embed_local_images fs content = ⟨catMap (renderEmb fs) (chunksEmb content.data)⟩ ∧
    (∀ alt path, EmbChunk.ref alt path ∈ chunksEmb content.data → fs path = none →
      renderEmb fs (EmbChunk.ref alt path) = embKeep alt path ∧
        path ∈ embedWarnings fs content) ∧
    (∀ (fs2 : EmbFS) (alt path : Chars), fs path = fs2 path →
      renderEmb fs (EmbChunk.ref alt path) = renderEmb fs2 (EmbChunk.ref alt path)) := by
  refine ⟨chunksEmbF_orig _ _ (le_refl _), ?_, ?_, ?_⟩
  · rw [embed_eq_go]
    exact congrArg String.mk (goEmb_eq_chunks fs _ _ (le_refl _))
  · intro alt path hmem hnone
    constructor
    · show (match fs path with
        | some mp => embRepl alt mp
        | none => embKeep alt path) = embKeep alt path
      rw [hnone]
    · have h1 : (alt, path) ∈ (chunksEmb content.data).filterMap
          (fun ch => match ch with
            | EmbChunk.ref a p => some (a, p)
            | EmbChunk.lit _ => none) :=
        List.mem_filterMap.mpr ⟨EmbChunk.ref alt path, hmem, rfl⟩
      rw [chunksEmb] at h1
      rw [← finditerEmbF_refs content.data.length 0 content.data (le_refl _)] at h1
      obtain ⟨mm, hmm, hmap⟩ := List.mem_map.mp h1
      have hp2 : mm.2.2.2 = path := congrArg Prod.snd hmap
      unfold embedWarnings
      refine List.mem_filterMap.mpr ⟨mm, ?_, ?_⟩
      · exact hmm
      · show (match fs mm.2.2.2 with
          | none => some mm.2.2.2
          | some _ => none) = some path
        rw [hp2, hnone]
  · intro fs2 alt path heq
    show (match fs path with
        | some mp => embRepl alt mp
        | none => embKeep alt path) =
      (match fs2 path with
        | some mp => embRepl alt mp
        | none => embKeep alt path)
    rw [heq]

/-- C9 counterexample: a document whose single heading of the form hash,
blank, text is the line # T still gets the title x, because the bare-hash
line above lets the whitespace of the pattern swallow the newline and
capture the following line's text. -/
theorem C9_counterexample :
    (splitNl ("#\n x\n# T" : String).data).filter isProper = ["# T".data] ∧
    captureOf "# T".data = "T".data ∧
    extractTitle "#\n x\n# T" = "x" := by
  decide

/-- C9 (corrected): on a document none of whose lines is a bare hash
followed only by whitespace, the title is the capture of the unique proper
heading line when there is exactly one, and the fixed default when there is
none.  Without that proviso the counterexample applies. -/
theorem C9_unique_heading (content : String)
    (htr : ∀ L ∈ splitNl content.data, isTrouble L = false) :
    ((splitNl content.data).filter isProper = [] →
      extractTitle content = "科技速食科普") ∧
    (∀ L, (splitNl content.data).filter isProper = [L] →
      extractTitle content = String.mk (captureOf L)) := by
  have hs := searchTitle_content content htr
  constructor
  · intro hnil
    have hall : ∀ L ∈ splitNl content.data, isProper L = false := by
      intro L hL
      have hnp := List.filter_eq_nil_iff.mp hnil L hL
      cases hE : isProper L
      · rfl
      · exact absurd hE hnp
    rw [firstProper_none _ hall] at hs
    unfold extractTitle
    rw [hs]
  · intro L hone
    obtain ⟨pre, post, hdec, hpre, -⟩ := filter_eq_single hone
    have hLp : isProper L = true := by
      have hmem : L ∈ (splitNl content.data).filter isProper := by
        rw [hone]; exact List.mem_cons_self _ _
      exact List.of_mem_filter hmem
    rw [hdec, firstProper_decomp pre L post hpre hLp] at hs
    unfold extractTitle
    rw [hs]

/-- C9 witness: the theorem applied to a concrete one-heading document. -/
theorem C9_witness : extractTitle "# Hello\nworld" = "Hello" := by
  have h := (C9_unique_heading "# Hello\nworld" (by decide)).2 "# Hello".data (by decide)
  rw [h]
  rfl

/-- C10 counterexample: with two or more lines of the form hash, blank,
text - here # A and # B - the title is not the captured text A of the first
such line: a bare-hash line above makes the match leak and the title is the
whole line # A. -/
theorem C10_counterexample :
    (splitNl ("#\n# A\n# B" : String).data).filter isProper =
      ["# A".data, "# B".data] ∧
    captureOf "# A".data = "A".data ∧
    extractTitle "#\n# A\n# B" = "# A" := by
  decide

/-- C10 (corrected): title selection is by first textual match with no
heading semantics, and on a document none of whose lines is a bare hash
followed only by whitespace the match is exactly the first line of the
form hash, whitespace, text - whatever lines (fenced or not) surround it -
and the title is that line's captured text.  Without the proviso the
counterexample applies. -/
theorem C10_first_line (content : String) (pre : List Chars) (L : Chars)
    (post : List Chars)
    (hdec : splitNl content.data = pre ++ L :: post)
    (hpre : ∀ x ∈ pre, isProper x = false)
    (hL : isProper L = true)
    (htr : ∀ x ∈ splitNl content.data, isTrouble x = false) :
    extractTitle content = String.mk (captureOf L) := by
  have hs := searchTitle_content content htr
  rw [hdec, firstProper_decomp pre L post hpre hL] at hs
  unfold extractTitle
  rw [hs]

/-- C10 witness: a document with two heading-shaped lines; the title is the
captured text of the first. -/
theorem C10_witness : extractTitle "x\n# A\n# B" = "A" := by
  have h := C10_first_line "x\n# A\n# B" ["x".data] "# A".data ["# B".data]
    (by decide) (by decide) (by decide) (by decide)
  rw [h]
  rfl

end WeChatGen

